import Mathlib

/-!
Verification development for the ASDL definition-file front end
(lexer, recursive-descent parser, tree model, semantic checker) of
src/asdl.py.  The Python source is shallowly embedded: token and tree
classes become structures, the generator-based lexer becomes a
recursive function over the character list, the parser methods become
functions threading an explicit parser state, and Python dicts become
ordered association lists with Python dict semantics (insertion order
preserved, value overwritten in place on key reuse).

Modelling notes, for a reader diffing against the source:
- Character classes are restricted to ASCII: str.isalpha, str.isupper
  and the regex classes \w and \s are modelled on ASCII characters
  (all inputs of interest are ASCII).
- The source pulls tokens lazily from a generator; this model runs the
  tokenizer over the whole buffer first and feeds the parser the token
  list.  The two agree on every buffer whose whole text lexes; they can
  differ only when a parse finishes or fails before a later lexical
  error in the buffer is reached.
- Python raises exceptions; here fallible functions return Except.
  Accessing cur_token.kind while cur_token is None raises AttributeError
  in Python; that outcome is the dedicated error value PErr.noneType,
  distinct from the ASDLSyntaxError cases.
- The parser loops take a fuel argument for termination; the top-level
  entry point supplies fuel that is far larger than the parse of a token
  list can consume (every loop iteration consumes at least one token),
  so the fuelOut outcome is unreachable from parseString.
-/

deriving instance DecidableEq for Except

namespace ASDL

/-- Token kinds, mirroring the TokenKind enum of asdl.py. -/
inductive TokenKind where
  | ConstructorId
  | TypeId
  | Equals
  | Question
  | Pipe
  | LParen
  | RParen
  | Comma
  | Asterisk
  | LBrace
  | RBrace
deriving DecidableEq, Repr

/-- Token namedtuple: kind, literal value, 1-based line number. -/
structure Token where
  kind : TokenKind
  value : String
  lineno : Nat
deriving DecidableEq, Repr

/-- Field node: type name, optional field name, seq and opt flags
(Field.__init__ of asdl.py). -/
structure Field where
  type : String
  name : Option String
  seq : Bool
  opt : Bool
deriving DecidableEq, Repr

/-- Field constructor call, mirroring Field(type, name, seq=, opt=). -/
def Field.make (type : String) (name : Option String) (seq opt : Bool) : Field :=
  ⟨type, name, seq, opt⟩

/-- Constructor node: name plus field list. -/
structure Constructor where
  name : String
  fields : List Field
deriving DecidableEq, Repr

/-- Constructor.__init__: the fields argument may be absent (None); the
body stores fields or [], so a missing list becomes the empty list. -/
def Constructor.make (name : String) (fields : Option (List Field)) : Constructor :=
  ⟨name, fields.getD []⟩

/-- Sum node: constructor list plus attribute fields. -/
structure Sum where
  types : List Constructor
  attributes : List Field
deriving DecidableEq, Repr

/-- Sum.__init__: attributes may be absent (None) and become []. -/
def Sum.make (types : List Constructor) (attributes : Option (List Field)) : Sum :=
  ⟨types, attributes.getD []⟩

/-- Product node: field list plus attribute fields. -/
structure Product where
  fields : List Field
  attributes : List Field
deriving DecidableEq, Repr

/-- Product.__init__: attributes may be absent (None) and become []. -/
def Product.make (fields : List Field) (attributes : Option (List Field)) : Product :=
  ⟨fields, attributes.getD []⟩

/-- The value of a Type definition is either a Sum or a Product node. -/
inductive TypeVal where
  | sum : ASDL.Sum → TypeVal
  | product : ASDL.Product → TypeVal
deriving DecidableEq, Repr

/-- Type node of asdl.py (named TypeDef here because Type is a Lean
keyword): one name = value definition inside a module. -/
structure TypeDef where
  name : String
  value : TypeVal
deriving DecidableEq, Repr

/-- A Python dict with string keys, as an ordered association list:
insertion order is preserved and a repeated key overwrites the stored
value in place, as Python dicts do. -/
def lookupA {α : Type} (l : List (String × α)) (k : String) : Option α :=
  (l.find? (fun p => p.1 = k)).map (fun p => p.2)

/-- Python dict assignment d[k] = v: overwrite in place if the key is
present, otherwise append the new binding at the end. -/
def dictInsert {α : Type} : List (String × α) → String → α → List (String × α)
  | [], k, v => [(k, v)]
  | (k', v') :: rest, k, v =>
    if k' = k then (k', v) :: rest else (k', v') :: dictInsert rest k v

/-- Module node: name, ordered definitions, and the derived name-to-value
dict built exactly like the comprehension in Module.__init__ (so a later
definition with the same name overwrites the earlier value). -/
structure Module where
  name : String
  dfns : List TypeDef
  types : List (String × TypeVal)
deriving DecidableEq, Repr

/-- Module.__init__: stores name and dfns and derives the types dict. -/
def Module.make (name : String) (dfns : List TypeDef) : Module :=
  ⟨name, dfns, dfns.foldl (fun d t => dictInsert d t.name t.value) []⟩

/-- The fixed builtin type-name set of asdl.py. -/
def builtin_types : List String :=
  ["identifier", "string", "bytes", "int", "object", "singleton"]

/-! ## Lexer -/

/-- ASCII whitespace, the characters matched by the regex class \s. -/
def isSpace (c : Char) : Bool :=
  c = ' ' || c = '\t' || c = '\n' || c = '\r' || c = '\x0b' || c = '\x0c'

/-- ASCII letters, modelling str.isalpha on the inputs of interest. -/
def isAlpha (c : Char) : Bool :=
  ('a' ≤ c && c ≤ 'z') || ('A' ≤ c && c ≤ 'Z')

/-- ASCII upper-case letters, modelling str.isupper. -/
def isUpper (c : Char) : Bool :=
  'A' ≤ c && c ≤ 'Z'

/-- ASCII word characters, the regex class \w: the identifier run after
its leading letter extends over letters, digits and underscore. -/
def isWordChar (c : Char) : Bool :=
  isAlpha c || ('0' ≤ c && c ≤ '9') || c = '_'

/-- Skip to the newline that ends a comment: buf.find of a newline, with
everything before it discarded and the newline itself kept (it is
whitespace, so the main loop counts it for the line number). -/
def dropToNewline : List Char → List Char
  | [] => []
  | c :: cs => if c = '\n' then c :: cs else dropToNewline cs

theorem dropToNewline_length_le (l : List Char) :
    (dropToNewline l).length ≤ l.length := by
  induction l with
  | nil => simp [dropToNewline]
  | cons c cs ih =>
    simp only [dropToNewline]
    split
    · simp
    · exact Nat.le_succ_of_le ih

theorem dropWhile_length_le (p : Char → Bool) (l : List Char) :
    (l.dropWhile p).length ≤ l.length := by
  induction l with
  | nil => simp [List.dropWhile]
  | cons c cs ih =>
    simp only [List.dropWhile]
    split
    · exact Nat.le_succ_of_le ih
    · simp

/-- The single-character operator table of tokenize_asdl. -/
def opKind (c : Char) : Option TokenKind :=
  if c = '=' then some .Equals
  else if c = ',' then some .Comma
  else if c = '?' then some .Question
  else if c = '|' then some .Pipe
  else if c = '(' then some .LParen
  else if c = ')' then some .RParen
  else if c = '*' then some .Asterisk
  else if c = '\x7b' then some .LBrace
  else if c = '\x7d' then some .RBrace
  else none

/-- Error outcomes of the embedded code.  syntaxError carries the
ASDLSyntaxError message and line; unmatched is the ASDLSyntaxError
raised by _match, carrying the data its message is formatted from
(expected kinds, found kind, line); noneType is the Python
AttributeError raised when cur_token is None and .kind or .value is
accessed on it; fuelOut is an artifact of the fueled loops and is
unreachable from the entry point. -/
inductive PErr where
  | synErr : String → Option Nat → PErr
  | unmatched : List TokenKind → TokenKind → Nat → PErr
  | noneType : PErr
  | fuelOut : PErr
deriving DecidableEq, Repr

/-- True exactly for the outcomes modelling an ASDLSyntaxError. -/
def PErr.isSyntax : PErr → Bool
  | .synErr _ _ => true
  | .unmatched _ _ _ => true
  | _ => false

/-- The tokenizer of asdl.py over the character list, with the running
line number.  Whitespace is skipped a character at a time (newlines
increment the line number); a letter starts a maximal word-character
run classified by the case of its first letter; a dash followed by a
dash starts a comment running to end of line; other characters go
through the operator table.  A fuel argument makes the recursion
structural; every step consumes at least one character, so any fuel
above the buffer length behaves identically (tokenizeF_stable), and the
tokenize wrapper below supplies such a fuel. -/
def tokenizeF : Nat → List Char → Nat → Except PErr (List Token)
  | 0, _, _ => .error .fuelOut
  | _ + 1, [], _ => .ok []
  | f + 1, c :: cs, lineno =>
    if isSpace c then
      tokenizeF f cs (if c = '\n' then lineno + 1 else lineno)
    else if isAlpha c then
      let id := String.mk (c :: cs.takeWhile isWordChar)
      let kind := if isUpper c then TokenKind.ConstructorId else TokenKind.TypeId
      match tokenizeF f (cs.dropWhile isWordChar) lineno with
      | .ok ts => .ok (⟨kind, id, lineno⟩ :: ts)
      | .error e => .error e
    else if c = '-' then
      match cs with
      | c2 :: cs2 =>
        if c2 = '-' then tokenizeF f (dropToNewline cs2) lineno
        else .error (.synErr ("Invalid operator " ++ String.mk [c]) (some lineno))
      | [] => .error (.synErr ("Invalid operator " ++ String.mk [c]) (some lineno))
    else
      match opKind c with
      | some k =>
        match tokenizeF f cs lineno with
        | .ok ts => .ok (⟨k, String.mk [c], lineno⟩ :: ts)
        | .error e => .error e
      | none => .error (.synErr ("Invalid operator " ++ String.mk [c]) (some lineno))

theorem tokenizeF_stable :
    ∀ f₁ f₂ cs n, cs.length < f₁ → cs.length < f₂ →
      tokenizeF f₁ cs n = tokenizeF f₂ cs n := by
  intro f₁
  induction f₁ with
  | zero => intro f₂ cs n h1 _; omega
  | succ f ih =>
    intro f₂ cs n h1 h2
    cases cs with
    | nil =>
      cases f₂ with
      | zero => omega
      | succ f₂ => rfl
    | cons c cs' =>
      cases f₂ with
      | zero => omega
      | succ f₂ =>
        simp only [List.length_cons] at h1 h2
        simp only [tokenizeF]
        have hdw := dropWhile_length_le isWordChar cs'
        split
        · exact ih f₂ cs' _ (by omega) (by omega)
        · split
          · rw [ih f₂ _ n (by omega) (by omega)]
          · split
            · cases cs' with
              | nil => rfl
              | cons c2 cs2 =>
                simp only [List.length_cons] at h1 h2
                by_cases hc2 : c2 = '-'
                · subst hc2
                  simp only [if_pos rfl]
                  have := dropToNewline_length_le cs2
                  exact ih f₂ _ n (by omega) (by omega)
                · simp only [if_neg hc2]
            · split
              · rw [ih f₂ cs' n (by omega) (by omega)]
              · rfl

/-- The tokenize entry point: run with sufficient fuel. -/
def tokenize (cs : List Char) (lineno : Nat) : Except PErr (List Token) :=
  tokenizeF (cs.length + 1) cs lineno

theorem tokenize_nil (n : Nat) : tokenize [] n = .ok [] := rfl

/-- The one-step unfolding of tokenize, mirroring the branch structure
of the loop body of tokenize_asdl. -/
theorem tokenize_cons (c : Char) (cs : List Char) (lineno : Nat) :
    tokenize (c :: cs) lineno =
      (if isSpace c then
        tokenize cs (if c = '\n' then lineno + 1 else lineno)
      else if isAlpha c then
        match tokenize (cs.dropWhile isWordChar) lineno with
        | .ok ts =>
          .ok (⟨if isUpper c then TokenKind.ConstructorId else TokenKind.TypeId,
                String.mk (c :: cs.takeWhile isWordChar), lineno⟩ :: ts)
        | .error e => .error e
      else if c = '-' then
        match cs with
        | c2 :: cs2 =>
          if c2 = '-' then tokenize (dropToNewline cs2) lineno
          else .error (.synErr ("Invalid operator " ++ String.mk [c]) (some lineno))
        | [] => .error (.synErr ("Invalid operator " ++ String.mk [c]) (some lineno))
      else
        match opKind c with
        | some k =>
          match tokenize cs lineno with
          | .ok ts => .ok (⟨k, String.mk [c], lineno⟩ :: ts)
          | .error e => .error e
        | none => .error (.synErr ("Invalid operator " ++ String.mk [c]) (some lineno))) := by
  show tokenizeF (cs.length + 2) (c :: cs) lineno = _
  simp only [tokenizeF]
  have hdw := dropWhile_length_le isWordChar cs
  split
  · exact tokenizeF_stable _ _ _ _ (by omega) (by omega)
  · split
    · rw [tokenizeF_stable (cs.length + 1) ((cs.dropWhile isWordChar).length + 1)
        (cs.dropWhile isWordChar) lineno (by omega) (by omega)]
      rfl
    · split
      · cases cs with
        | nil => rfl
        | cons c2 cs2 =>
          by_cases hc2 : c2 = '-'
          · subst hc2
            simp only [if_pos rfl]
            have := dropToNewline_length_le cs2
            exact tokenizeF_stable _ _ _ _ (by simp; omega) (by omega)
          · simp only [if_neg hc2]
      · split
        · rfl
        · rfl

/-! ## Parser

The parser state holds the one-token lookahead cur_token and the not yet
consumed tail of the token sequence.  cur = none models cur_token is
None (end of the token stream). -/

structure PSt where
  cur : Option Token
  toks : List Token
deriving DecidableEq, Repr

/-- The advance step: cur_token takes the next token of the stream, or
None when the stream is exhausted (the StopIteration branch). -/
def advanceSt (st : PSt) : PSt :=
  ⟨st.toks.head?, st.toks.tail⟩

/-- The two identifier kinds, _id_kinds of ASDLParser. -/
def idKinds : List TokenKind := [.ConstructorId, .TypeId]

/-- The _match primitive: on a token of one of the expected kinds,
return its value and advance; on any other token raise the Unmatched
syntax error carrying the expected kinds, the found kind and the line.
Accessing the kind while cur_token is None is the AttributeError. -/
def matchTok (kinds : List TokenKind) (st : PSt) : Except PErr (String × PSt) :=
  match st.cur with
  | none => .error .noneType
  | some t =>
    if t.kind ∈ kinds then .ok (t.value, advanceSt st)
    else .error (.unmatched kinds t.kind t.lineno)

/-- The _at_keyword test: current token is a TypeId with the given
value.  Inspecting the kind of a missing token is the AttributeError. -/
def atKeyword (kw : String) (st : PSt) : Except PErr Bool :=
  match st.cur with
  | none => .error .noneType
  | some t => .ok (t.kind = .TypeId && t.value = kw)

/-- The _parse_optional_field_quantifier step: consume at most one of
the Asterisk or Question tokens after a field type name; an elif makes
the two exclusive, and absence of either leaves both flags false. -/
def parseQuantifier (st : PSt) : Except PErr ((Bool × Bool) × PSt) :=
  match st.cur with
  | none => .error .noneType
  | some t =>
    if t.kind = .Asterisk then .ok ((true, false), advanceSt st)
    else if t.kind = .Question then .ok ((false, true), advanceSt st)
    else .ok ((false, false), st)

mutual

/-- The _parse_fields loop body: while the current token is a TypeId,
take the type name, the optional quantifier, the optional field name,
then stop on RParen, skip a Comma, or just continue. -/
def parseFieldsLoop : Nat → PSt → Except PErr (List Field × PSt)
  | 0, _ => .error .fuelOut
  | Nat.succ fl, st =>
    match st.cur with
    | none => .error .noneType
    | some t =>
      if t.kind = .TypeId then
        let st1 := advanceSt st
        match parseQuantifier st1 with
        | .error e => .error e
        | .ok ((isSeq, isOpt), st2) =>
          match st2.cur with
          | none => .error .noneType
          | some t2 =>
            let idSt : Option String × PSt :=
              if t2.kind ∈ idKinds then (some t2.value, advanceSt st2) else (none, st2)
            let fld := Field.make t.value idSt.1 isSeq isOpt
            match idSt.2.cur with
            | none => .error .noneType
            | some t3 =>
              if t3.kind = .RParen then .ok ([fld], idSt.2)
              else if t3.kind = .Comma then
                match parseFieldsLoop fl (advanceSt idSt.2) with
                | .error e => .error e
                | .ok (rest, st4) => .ok (fld :: rest, st4)
              else
                match parseFieldsLoop fl idSt.2 with
                | .error e => .error e
                | .ok (rest, st4) => .ok (fld :: rest, st4)
      else .ok ([], st)

/-- The _parse_fields method: LParen, the field loop, RParen. -/
def parseFields : Nat → PSt → Except PErr (List Field × PSt)
  | 0, _ => .error .fuelOut
  | Nat.succ fl, st =>
    match matchTok [.LParen] st with
    | .error e => .error e
    | .ok (_, st1) =>
      match parseFieldsLoop fl st1 with
      | .error e => .error e
      | .ok (fs, st2) =>
        match matchTok [.RParen] st2 with
        | .error e => .error e
        | .ok (_, st3) => .ok (fs, st3)

/-- The _parse_optional_fields method: a parenthesized field list if an
LParen is next, otherwise None. -/
def parseOptionalFields : Nat → PSt → Except PErr (Option (List Field) × PSt)
  | 0, _ => .error .fuelOut
  | Nat.succ fl, st =>
    match st.cur with
    | none => .error .noneType
    | some t =>
      if t.kind = .LParen then
        match parseFields fl st with
        | .error e => .error e
        | .ok (fs, st1) => .ok (some fs, st1)
      else .ok (none, st)

/-- The _parse_optional_attributes method: on the attributes keyword,
consume it and parse one more field list, otherwise None. -/
def parseOptionalAttributes : Nat → PSt → Except PErr (Option (List Field) × PSt)
  | 0, _ => .error .fuelOut
  | Nat.succ fl, st =>
    match atKeyword "attributes" st with
    | .error e => .error e
    | .ok b =>
      if b then
        match parseFields fl (advanceSt st) with
        | .error e => .error e
        | .ok (fs, st1) => .ok (some fs, st1)
      else .ok (none, st)

/-- The while Pipe loop of _parse_type: further constructors of a sum,
each a ConstructorId with an optional field list. -/
def parseSumTail : Nat → PSt → Except PErr (List Constructor × PSt)
  | 0, _ => .error .fuelOut
  | Nat.succ fl, st =>
    match st.cur with
    | none => .error .noneType
    | some t =>
      if t.kind = .Pipe then
        match matchTok [.ConstructorId] (advanceSt st) with
        | .error e => .error e
        | .ok (cn, st1) =>
          match parseOptionalFields fl st1 with
          | .error e => .error e
          | .ok (f, st2) =>
            match parseSumTail fl st2 with
            | .error e => .error e
            | .ok (cs, st3) => .ok (Constructor.make cn f :: cs, st3)
      else .ok ([], st)

/-- The _parse_type method: an LParen commits to a product, anything
else to a sum led by a ConstructorId. -/
def parseType : Nat → PSt → Except PErr (TypeVal × PSt)
  | 0, _ => .error .fuelOut
  | Nat.succ fl, st =>
    match st.cur with
    | none => .error .noneType
    | some t =>
      if t.kind = .LParen then
        match parseFields fl st with
        | .error e => .error e
        | .ok (fs, st1) =>
          match parseOptionalAttributes fl st1 with
          | .error e => .error e
          | .ok (attrs, st2) => .ok (.product (Product.make fs attrs), st2)
      else
        match matchTok [.ConstructorId] st with
        | .error e => .error e
        | .ok (cn, st1) =>
          match parseOptionalFields fl st1 with
          | .error e => .error e
          | .ok (f0, st2) =>
            match parseSumTail fl st2 with
            | .error e => .error e
            | .ok (cs, st3) =>
              match parseOptionalAttributes fl st3 with
              | .error e => .error e
              | .ok (attrs, st4) =>
                .ok (.sum (Sum.make (Constructor.make cn f0 :: cs) attrs), st4)

/-- The _parse_definitions loop: while the current token is a TypeId,
read one name = type definition. -/
def parseDefinitions : Nat → PSt → Except PErr (List TypeDef × PSt)
  | 0, _ => .error .fuelOut
  | Nat.succ fl, st =>
    match st.cur with
    | none => .error .noneType
    | some t =>
      if t.kind = .TypeId then
        match matchTok [.Equals] (advanceSt st) with
        | .error e => .error e
        | .ok (_, st1) =>
          match parseType fl st1 with
          | .error e => .error e
          | .ok (ty, st2) =>
            match parseDefinitions fl st2 with
            | .error e => .error e
            | .ok (rest, st3) => .ok (TypeDef.mk t.value ty :: rest, st3)
      else .ok ([], st)

/-- The _parse_module method: the module keyword, a name, a braced
definition list; anything else in keyword position is the Expected
module syntax error with the found value and line. -/
def parseModule : Nat → PSt → Except PErr Module
  | 0, _ => .error .fuelOut
  | Nat.succ fl, st =>
    match atKeyword "module" st with
    | .error e => .error e
    | .ok b =>
      if b then
        match matchTok idKinds (advanceSt st) with
        | .error e => .error e
        | .ok (name, st1) =>
          match matchTok [.LBrace] st1 with
          | .error e => .error e
          | .ok (_, st2) =>
            match parseDefinitions fl st2 with
            | .error e => .error e
            | .ok (defs, st3) =>
              match matchTok [.RBrace] st3 with
              | .error e => .error e
              | .ok (_, _) => .ok (Module.make name defs)
      else
        match st.cur with
        | none => .error .noneType
        | some t =>
          .error (.synErr ("Expected \"module\" (found " ++ t.value ++ ")")
                    (some t.lineno))

end

/-- Run the parser over a token list: load the first token into the
lookahead (the initial _advance) and parse a module.  The fuel bound is
far above what a parse of the list can consume. -/
def parseToks (T : List Token) : Except PErr Module :=
  parseModule (8 * T.length + 64) ⟨T.head?, T.tail⟩

/-- The parse entry point over a character buffer: tokenize, then parse. -/
def parseChars (cs : List Char) : Except PErr Module :=
  match tokenize cs 1 with
  | .error e => .error e
  | .ok T => parseToks T

/-- The parse entry point over a string buffer. -/
def parseString (s : String) : Except PErr Module :=
  parseChars s.data

/-! ## The Check visitor and the check entry point

Check walks the module accumulating three pieces of state: the cons
dict (constructor name to the type name that first defined it), the
error counter, and the types dict (referenced field-type name to the
ordered list of names that used it).  Printed diagnostics are collected
in msgs, in print order.  Note two facts visible in the source: the
visitor has no handler for attribute lists (visitSum walks only
sum.types and visitProduct only prod.fields, so attribute fields are
never visited), and visitConstructor passes the constructor name, not
the enclosing type name, as the usage site of its fields. -/

structure CheckSt where
  cons : List (String × String)
  errors : Nat
  types : List (String × List String)
  msgs : List String
deriving DecidableEq, Repr

/-- The initial state of a fresh Check instance. -/
def initCheck : CheckSt := ⟨[], 0, [], []⟩

/-- dict.setdefault(key, []).append(name): append the name to the list
stored under the key, creating the binding at the end on a new key. -/
def setdefaultAppend : List (String × List String) → String → String →
    List (String × List String)
  | [], k, v => [(k, [v])]
  | (k', vs) :: rest, k, v =>
    if k' = k then (k', vs ++ [v]) :: rest
    else (k', vs) :: setdefaultAppend rest k v

/-- Check.visitField: record the field type as used by the given name. -/
def visitField (f : Field) (name : String) (st : CheckSt) : CheckSt :=
  { st with types := setdefaultAppend st.types f.type name }

/-- Check.visitConstructor: a first definition of the constructor name
is recorded with its defining type name; a repeated one prints the two
diagnostic lines and increments the error counter, leaving the recorded
first definer in place.  The constructor fields are then visited with
the constructor name as the usage site. -/
def visitConstructor (c : Constructor) (name : String) (st : CheckSt) : CheckSt :=
  let st1 :=
    match lookupA st.cons c.name with
    | none => { st with cons := st.cons ++ [(c.name, name)] }
    | some conflict =>
      { st with
        errors := st.errors + 1,
        msgs := st.msgs ++
          ["Redefinition of constructor" ++ c.name,
           "Defined in " ++ conflict ++ " and " ++ name] }
  c.fields.foldl (fun s f => visitField f c.name s) st1

/-- Check.visitSum: visit the constructors only (not the attributes). -/
def visitSum (s : ASDL.Sum) (name : String) (st : CheckSt) : CheckSt :=
  s.types.foldl (fun st c => visitConstructor c name st) st

/-- Check.visitProduct: visit the primary fields only (not the
attributes), with the type name as the usage site. -/
def visitProduct (p : Product) (name : String) (st : CheckSt) : CheckSt :=
  p.fields.foldl (fun st f => visitField f name st) st

/-- Check.visitType: visit the definition value under the type name. -/
def visitType (t : TypeDef) (st : CheckSt) : CheckSt :=
  match t.value with
  | .sum s => visitSum s t.name st
  | .product p => visitProduct p t.name st

/-- Check.visitModule: visit every definition in order. -/
def visitModule (m : Module) (st : CheckSt) : CheckSt :=
  m.dfns.foldl (fun st d => visitType d st) st

/-- One entry of the undefined-type loop at the end of check: if the
referenced name is neither a key of the module types dict nor a
builtin, print the diagnostic naming every recorded user and increment
the error counter. -/
def sweepStep (m : Module) (acc : CheckSt) (p : String × List String) : CheckSt :=
  if (lookupA m.types p.1).isNone && p.1 ∉ builtin_types then
    { acc with
      errors := acc.errors + 1,
      msgs := acc.msgs ++
        ["Undefined type " ++ p.1 ++ ", used in " ++
          String.intercalate ", " p.2] }
  else acc

/-- The undefined-type sweep at the end of check: the loop over the
keys of the accumulated types dict, in insertion order. -/
def undefinedSweep (m : Module) (st : CheckSt) : CheckSt :=
  st.types.foldl (sweepStep m) st

/-- The check entry point: traverse with a fresh Check visitor, run the
undefined-type sweep, and return True exactly when the error counter is
zero, together with the final visitor state (its msgs field is the
transcript the Python version prints). -/
def check (m : Module) : Bool × CheckSt :=
  let v := undefinedSweep m (visitModule m initCheck)
  (v.errors == 0, v)

/-! ## Helper lemmas -/

theorem isSpace_of_eq {c : Char} (h : isSpace c = true) :
    c = ' ' ∨ c = '\t' ∨ c = '\n' ∨ c = '\r' ∨ c = '\x0b' ∨ c = '\x0c' := by
  simp only [isSpace, Bool.or_eq_true, decide_eq_true_eq] at h
  tauto

theorem isAlpha_not_space {c : Char} (h : isAlpha c = true) : isSpace c = false := by
  by_contra hs
  have hs' : isSpace c = true := by
    cases hh : isSpace c
    · exact absurd hh hs
    · rfl
  rcases isSpace_of_eq hs' with h1 | h1 | h1 | h1 | h1 | h1 <;> subst h1 <;>
    exact absurd h (by decide)

theorem isAlpha_isWordChar {c : Char} (h : isAlpha c = true) : isWordChar c = true := by
  simp [isWordChar, h]

theorem takeWhile_all (p : Char → Bool) (l : List Char) :
    (l.takeWhile p).all p = true := by
  induction l with
  | nil => rfl
  | cons c cs ih =>
    simp only [List.takeWhile]
    cases h : p c with
    | false => rfl
    | true => simpa [h] using ih

theorem dropWhile_head_false (p : Char → Bool) (l : List Char) (d : Char)
    (ds : List Char) (h : l.dropWhile p = d :: ds) : p d = false := by
  induction l with
  | nil => simp [List.dropWhile] at h
  | cons c cs ih =>
    simp only [List.dropWhile] at h
    cases hc : p c with
    | true => exact ih (by simpa [hc] using h)
    | false =>
      simp [hc] at h
      rw [← h.1]; exact hc

theorem lookupA_dictInsert {α : Type} (d : List (String × α)) (k k' : String) (v : α) :
    lookupA (dictInsert d k v) k' = if k' = k then some v else lookupA d k' := by
  induction d with
  | nil =>
    by_cases h : k' = k
    · subst h; simp [dictInsert, lookupA]
    · simp [dictInsert, lookupA, h, Ne.symm h]
  | cons p rest ih =>
    obtain ⟨pk, pv⟩ := p
    by_cases h1 : pk = k
    · subst h1
      by_cases h2 : k' = pk
      · subst h2; simp [dictInsert, lookupA]
      · simp [dictInsert, lookupA, h2, Ne.symm h2]
    · have hd : dictInsert ((pk, pv) :: rest) k v = (pk, pv) :: dictInsert rest k v := by
        simp [dictInsert, h1]
      rw [hd]
      by_cases h2 : k' = pk
      · subst h2
        simp [lookupA, List.find?, h1]
      · have hL : lookupA ((pk, pv) :: dictInsert rest k v) k' =
            lookupA (dictInsert rest k v) k' := by
          simp [lookupA, List.find?, Ne.symm h2]
        have hR : lookupA ((pk, pv) :: rest) k' = lookupA rest k' := by
          simp [lookupA, List.find?, Ne.symm h2]
        rw [hL, hR, ih]

theorem lookupA_foldl_dictInsert (l : List TypeDef) (init : List (String × TypeVal))
    (k : String) :
    lookupA (l.foldl (fun d t => dictInsert d t.name t.value) init) k =
      match l.reverse.find? (fun d => d.name = k) with
      | some d => some d.value
      | none => lookupA init k := by
  induction l generalizing init with
  | nil => simp
  | cons t ts ih =>
    simp only [List.foldl_cons, List.reverse_cons]
    rw [ih]
    rw [List.find?_append]
    cases h : ts.reverse.find? (fun d => decide (d.name = k)) with
    | some d => simp [h]
    | none =>
      simp only [h, Option.none_orElse]
      simp only [List.find?]
      by_cases hk : t.name = k
      · simp [hk, lookupA_dictInsert]
      · simp [hk, lookupA_dictInsert]
        intro h; exact absurd h.symm hk

/-! ## Claim C9: the Module types mapping and duplicate definitions -/

/-- Claim C9.  Constructing a Module from a name and a definition list
stores the name and list unchanged and derives the types dict; the
value found under any key is the value of the last definition with
that name (so when two definitions share a name, the later one wins),
and the construction is total, raising and reporting nothing. -/
theorem c9_module_types_later_wins (n : String) (dfns : List TypeDef) (k : String) :
    (Module.make n dfns).name = n ∧ (Module.make n dfns).dfns = dfns ∧
    lookupA (Module.make n dfns).types k =
      match dfns.reverse.find? (fun d => d.name = k) with
      | some d => some d.value
      | none => none := by
  refine ⟨rfl, rfl, ?_⟩
  show lookupA (dfns.foldl (fun d t => dictInsert d t.name t.value) []) k = _
  rw [lookupA_foldl_dictInsert]
  rfl

/-! ## Claim C10: parsed nodes carry actual lists, never a missing value -/

/-- Claim C10.  In the tree model every field or attribute collection
is a genuine list.  The node constructors turn a missing (None)
collection into the empty list, exactly as the fields-or-[] and
attributes-or-[] defaults do, so a constructor written without a
parenthesized field list gets an empty fields list and absent
attributes become an empty attributes list, as the parse of a sum of
two bare constructors exhibits. -/
theorem c10_no_missing_collections :
    (∀ n : String, Constructor.make n none = ⟨n, []⟩) ∧
    (∀ ts : List Constructor, Sum.make ts none = ⟨ts, []⟩) ∧
    (∀ fs : List Field, Product.make fs none = ⟨fs, []⟩) ∧
    parseString "module M \x7b x = A | B \x7d" =
      .ok (Module.make "M"
        [⟨"x", .sum ⟨[⟨"A", []⟩, ⟨"B", []⟩], []⟩⟩]) := by
  refine ⟨fun n => rfl, fun ts => rfl, fun fs => rfl, by decide⟩

/-! ## Claim C8: identifier lexing and classification -/

/-- Claim C8.  At any position of the buffer (any suffix the tokenizer
reaches) that starts with an alphabetic character, the lexer emits one
identifier token whose value is that character followed by the maximal
run of word characters, classified as a constructor identifier when the
first character is upper case and as a type identifier otherwise, and
then continues right after the run; the value consists of word
characters only and the character after it, if any, is not a word
character. -/
theorem c8_identifier_classification (c : Char) (cs : List Char) (lineno : Nat)
    (h : isAlpha c = true) :
    tokenize (c :: cs) lineno =
      (match tokenize (cs.dropWhile isWordChar) lineno with
       | .ok ts =>
         .ok (⟨if isUpper c then TokenKind.ConstructorId else TokenKind.TypeId,
               String.mk (c :: cs.takeWhile isWordChar), lineno⟩ :: ts)
       | .error e => .error e) ∧
    (c :: cs.takeWhile isWordChar).all isWordChar = true ∧
    (∀ d ds, cs.dropWhile isWordChar = d :: ds → isWordChar d = false) := by
  refine ⟨?_, ?_, ?_⟩
  · rw [tokenize_cons]
    rw [if_neg (by simp [isAlpha_not_space h]), if_pos h]
  · simp [List.all_cons, isAlpha_isWordChar h, takeWhile_all]
  · intro d ds hd; exact dropWhile_head_false _ _ _ _ hd

theorem c8_identifier_classification_witness :
    tokenize ('F' :: "oo bar".data) 1 =
      (match tokenize (("oo bar".data).dropWhile isWordChar) 1 with
       | .ok ts =>
         .ok (⟨if isUpper 'F' then TokenKind.ConstructorId else TokenKind.TypeId,
               String.mk ('F' :: ("oo bar".data).takeWhile isWordChar), 1⟩ :: ts)
       | .error e => .error e) :=
  (c8_identifier_classification 'F' "oo bar".data 1 (by decide)).1

/-! ## Claim C2: failure behavior on grammar violations -/

/-- Claim C2 is refuted on the code: on the truncated input of the
scenario the parse fails by reading the kind attribute of the missing
current token (the AttributeError outcome), which is not a syntax
error and carries no expected kinds and no line number. -/
theorem c2_truncated_counterexample :
    parseString "module M \x7b x = (" = .error .noneType ∧
    PErr.isSyntax .noneType = false := by
  decide

/-- Claim C2 (amended).  A grammar violation detected at a present
token makes the match primitive raise the syntax error carrying the
expected token kinds, the kind actually found and its line, and an
error of any kind means no Module is returned; but input that ends
before a grammar rule is complete fails with the attribute access on
the missing (None) current token, which is not a syntax error and
carries no line number. -/
theorem c2_syntax_error_content :
    (∀ kinds st t, st.cur = some t → t.kind ∉ kinds →
      matchTok kinds st = .error (.unmatched kinds t.kind t.lineno)) ∧
    parseString "module M \x7b x = (" = .error .noneType := by
  constructor
  · intro kinds st t hcur hk
    simp [matchTok, hcur, hk]
  · decide

theorem c2_syntax_error_content_witness :
    matchTok [TokenKind.RBrace] ⟨some ⟨TokenKind.LParen, "(", 3⟩, []⟩ =
      .error (.unmatched [TokenKind.RBrace] TokenKind.LParen 3) :=
  c2_syntax_error_content.1 [TokenKind.RBrace] ⟨some ⟨TokenKind.LParen, "(", 3⟩, []⟩
    ⟨TokenKind.LParen, "(", 3⟩ rfl (by decide)

/-! ## The event view of the Check traversal

The Check visitor touches its state at exactly two places: once per
visited constructor (the cons map, the duplicate diagnostics and the
error counter) and once per visited field (the types map).  Flattening
the traversal into the ordered list of these events makes the
accumulated state a single left fold, which the lemmas below establish
and the claims about the checker are proved from.  Note how the events
record the usage site of a field: a constructor's fields carry the
constructor name, a product's fields the defining type name, and
attribute lists produce no events at all, mirroring visitConstructor,
visitProduct and visitSum. -/

inductive Event where
  | consE : String → String → Event
  | fieldE : String → String → Event
deriving DecidableEq, Repr

/-- One event applied to the checker state: exactly the state change of
visitConstructor (without its field loop) or of visitField. -/
def stepEvent (st : CheckSt) (e : Event) : CheckSt :=
  match e with
  | .consE cn tn =>
    match lookupA st.cons cn with
    | none => { st with cons := st.cons ++ [(cn, tn)] }
    | some conflict =>
      { st with
        errors := st.errors + 1,
        msgs := st.msgs ++
          ["Redefinition of constructor" ++ cn,
           "Defined in " ++ conflict ++ " and " ++ tn] }
  | .fieldE ft site => { st with types := setdefaultAppend st.types ft site }

/-- The events of one visited constructor: its name registration
followed by one field event per field, sited at the constructor name. -/
def consEvents (c : Constructor) (tn : String) : List Event :=
  .consE c.name tn :: c.fields.map (fun f => .fieldE f.type c.name)

/-- The events of one definition: a sum contributes its constructors
(and nothing for its attributes), a product one field event per primary
field sited at the type name (and nothing for its attributes). -/
def typeEvents (d : TypeDef) : List Event :=
  match d.value with
  | .sum s => s.types.flatMap (fun c => consEvents c d.name)
  | .product p => p.fields.map (fun f => .fieldE f.type d.name)

/-- The events of a whole module, in traversal order. -/
def moduleEvents (m : Module) : List Event :=
  m.dfns.flatMap typeEvents

theorem foldl_flatMap' {α β σ : Type} (g : α → List β) (f : σ → β → σ)
    (l : List α) (init : σ) :
    (l.flatMap g).foldl f init = l.foldl (fun s x => (g x).foldl f s) init := by
  induction l generalizing init with
  | nil => rfl
  | cons x xs ih => simp [List.flatMap_cons, List.foldl_append, ih]

theorem foldl_congr' {α σ : Type} {f g : σ → α → σ} (l : List α) (init : σ)
    (h : ∀ s x, x ∈ l → f s x = g s x) : l.foldl f init = l.foldl g init := by
  induction l generalizing init with
  | nil => rfl
  | cons x xs ih =>
    simp only [List.foldl_cons]
    rw [h init x (by simp)]
    exact ih _ fun s y hy => h s y (by simp [hy])

theorem visitConstructor_eq_events (c : Constructor) (tn : String) (st : CheckSt) :
    visitConstructor c tn st = (consEvents c tn).foldl stepEvent st := by
  simp only [visitConstructor, consEvents, List.foldl_cons, List.foldl_map]
  rfl

theorem visitType_eq_events (d : TypeDef) (st : CheckSt) :
    visitType d st = (typeEvents d).foldl stepEvent st := by
  cases hv : d.value with
  | sum s =>
    simp only [visitType, typeEvents, hv, visitSum, foldl_flatMap']
    exact foldl_congr' _ _ fun st c _ => visitConstructor_eq_events c d.name st
  | product p =>
    simp only [visitType, typeEvents, hv, visitProduct, List.foldl_map]
    rfl

theorem visitModule_eq_events (m : Module) (st : CheckSt) :
    visitModule m st = (moduleEvents m).foldl stepEvent st := by
  simp only [visitModule, moduleEvents, foldl_flatMap']
  exact foldl_congr' _ _ fun st d _ => visitType_eq_events d st

/-- The ordered usage sites recorded for a key by a list of events. -/
def fieldEvts (evts : List Event) (k : String) : List String :=
  evts.filterMap (fun e => match e with
    | .fieldE ft site => if ft = k then some site else none
    | _ => none)

/-- No constructor event for the given name occurs in the list. -/
def noConsFor (c : String) (evts : List Event) : Bool :=
  evts.all (fun e => match e with
    | .consE cn _ => !(cn = c)
    | _ => true)

theorem lookupA_setdefaultAppend (d : List (String × List String)) (k v k' : String) :
    lookupA (setdefaultAppend d k v) k' =
      if k' = k then some ((lookupA d k).getD [] ++ [v]) else lookupA d k' := by
  induction d with
  | nil =>
    by_cases h : k' = k
    · subst h; simp [setdefaultAppend, lookupA]
    · simp [setdefaultAppend, lookupA, h, Ne.symm h]
  | cons p rest ih =>
    obtain ⟨pk, pv⟩ := p
    by_cases h1 : pk = k
    · subst h1
      by_cases h2 : k' = pk
      · subst h2; simp [setdefaultAppend, lookupA]
      · simp [setdefaultAppend, lookupA, h2, Ne.symm h2]
    · have hd : setdefaultAppend ((pk, pv) :: rest) k v =
          (pk, pv) :: setdefaultAppend rest k v := by
        simp [setdefaultAppend, h1]
      rw [hd]
      by_cases h2 : k' = pk
      · subst h2
        simp [lookupA, List.find?, h1, Ne.symm h1]
      · have hL : lookupA ((pk, pv) :: setdefaultAppend rest k v) k' =
            lookupA (setdefaultAppend rest k v) k' := by
          simp [lookupA, List.find?, Ne.symm h2]
        have hR : lookupA ((pk, pv) :: rest) k' = lookupA rest k' := by
          simp [lookupA, List.find?, Ne.symm h2]
        have hK : lookupA ((pk, pv) :: rest) k = lookupA rest k := by
          simp [lookupA, List.find?, h1]
        rw [hL, hR, hK, ih]

theorem lookupA_append {α : Type} (l1 l2 : List (String × α)) (k : String) :
    lookupA (l1 ++ l2) k =
      match lookupA l1 k with
      | some v => some v
      | none => lookupA l2 k := by
  simp only [lookupA, List.find?_append]
  cases h : l1.find? (fun p => decide (p.1 = k)) <;> simp [h]

theorem stepEvent_types_consE (st : CheckSt) (cn tn : String) :
    (stepEvent st (.consE cn tn)).types = st.types := by
  simp only [stepEvent]
  cases lookupA st.cons cn <;> rfl

theorem stepEvent_cons_fieldE (st : CheckSt) (ft site : String) :
    (stepEvent st (.fieldE ft site)).cons = st.cons := rfl

/-- After a fold of events, the usage map holds, per key, whatever the
initial state held followed by the sites of the field events in order. -/
theorem types_after_events (evts : List Event) (st : CheckSt) (k : String) :
    lookupA ((evts.foldl stepEvent st).types) k =
      match lookupA st.types k with
      | some l0 => some (l0 ++ fieldEvts evts k)
      | none =>
        if fieldEvts evts k = [] then none else some (fieldEvts evts k) := by
  induction evts generalizing st with
  | nil =>
    simp only [List.foldl_nil, fieldEvts, List.filterMap_nil]
    cases h : lookupA st.types k <;> simp [h]
  | cons e rest ih =>
    cases e with
    | consE cn tn =>
      simp only [List.foldl_cons]
      rw [ih]
      have ht := stepEvent_types_consE st cn tn
      rw [ht]
      have hf : fieldEvts (Event.consE cn tn :: rest) k = fieldEvts rest k := by
        simp [fieldEvts]
      rw [hf]
    | fieldE ft site =>
      simp only [List.foldl_cons]
      rw [ih]
      have ht : (stepEvent st (.fieldE ft site)).types =
          setdefaultAppend st.types ft site := rfl
      rw [ht, lookupA_setdefaultAppend]
      by_cases h : ft = k
      · subst h
        have hf : fieldEvts (Event.fieldE ft site :: rest) ft =
            site :: fieldEvts rest ft := by
          simp [fieldEvts]
        rw [hf, if_pos rfl]
        cases h0 : lookupA st.types ft with
        | some l0 => simp [h0]
        | none => simp [h0]
      · have hf : fieldEvts (Event.fieldE ft site :: rest) k = fieldEvts rest k := by
          simp [fieldEvts, h]
        rw [hf, if_neg (fun hh : k = ft => h hh.symm)]

/-- A recorded constructor binding survives any further events: the
cons map is never overwritten, only extended. -/
theorem cons_preserved (evts : List Event) (st : CheckSt) (c v : String)
    (h : lookupA st.cons c = some v) :
    lookupA ((evts.foldl stepEvent st).cons) c = some v := by
  induction evts generalizing st with
  | nil => exact h
  | cons e rest ih =>
    refine ih _ ?_
    cases e with
    | fieldE ft site => exact h
    | consE cn tn =>
      simp only [stepEvent]
      cases hc : lookupA st.cons cn with
      | some conflict => exact h
      | none =>
        show lookupA (st.cons ++ [(cn, tn)]) c = some v
        rw [lookupA_append, h]

/-- Events carrying no constructor registration for a name leave its
cons binding unchanged. -/
theorem cons_unchanged (evts : List Event) (st : CheckSt) (c : String)
    (h : noConsFor c evts = true) :
    lookupA ((evts.foldl stepEvent st).cons) c = lookupA st.cons c := by
  induction evts generalizing st with
  | nil => rfl
  | cons e rest ih =>
    simp only [noConsFor, List.all_cons, Bool.and_eq_true] at h
    rw [List.foldl_cons, ih _ (by simp [noConsFor, h.2])]
    cases e with
    | fieldE ft site => rfl
    | consE cn tn =>
      have hcn : ¬ (cn = c) := by
        simpa using h.1
      simp only [stepEvent]
      cases hc : lookupA st.cons cn with
      | some conflict => rfl
      | none =>
        show lookupA (st.cons ++ [(cn, tn)]) c = lookupA st.cons c
        rw [lookupA_append]
        cases h0 : lookupA st.cons c with
        | some v => rfl
        | none => simp [lookupA, List.find?, hcn]

theorem errors_mono_step (st : CheckSt) (e : Event) :
    st.errors ≤ (stepEvent st e).errors := by
  cases e with
  | fieldE ft site => exact Nat.le_refl _
  | consE cn tn =>
    simp only [stepEvent]
    cases lookupA st.cons cn <;> simp

theorem errors_mono_events (evts : List Event) (st : CheckSt) :
    st.errors ≤ ((evts.foldl stepEvent st)).errors := by
  induction evts generalizing st with
  | nil => exact Nat.le_refl _
  | cons e rest ih => exact Nat.le_trans (errors_mono_step st e) (ih _)

theorem msgs_mono_step (st : CheckSt) (e : Event) (msg : String)
    (h : msg ∈ st.msgs) : msg ∈ (stepEvent st e).msgs := by
  cases e with
  | fieldE ft site => exact h
  | consE cn tn =>
    simp only [stepEvent]
    cases lookupA st.cons cn <;> simp [h]

theorem msgs_mono_events (evts : List Event) (st : CheckSt) (msg : String)
    (h : msg ∈ st.msgs) : msg ∈ ((evts.foldl stepEvent st)).msgs := by
  induction evts generalizing st with
  | nil => exact h
  | cons e rest ih => exact ih _ (msgs_mono_step st e msg h)

theorem sweepStep_types (m : Module) (acc : CheckSt) (p : String × List String) :
    (sweepStep m acc p).types = acc.types := by
  simp only [sweepStep]; split <;> rfl

theorem sweepStep_cons (m : Module) (acc : CheckSt) (p : String × List String) :
    (sweepStep m acc p).cons = acc.cons := by
  simp only [sweepStep]; split <;> rfl

theorem sweepFold_cons (m : Module) (entries : List (String × List String))
    (acc : CheckSt) :
    ((entries.foldl (sweepStep m) acc)).cons = acc.cons := by
  induction entries generalizing acc with
  | nil => rfl
  | cons p rest ih => rw [List.foldl_cons, ih, sweepStep_cons]

theorem sweepFold_errors_mono (m : Module) (entries : List (String × List String))
    (acc : CheckSt) :
    acc.errors ≤ ((entries.foldl (sweepStep m) acc)).errors := by
  induction entries generalizing acc with
  | nil => exact Nat.le_refl _
  | cons p rest ih =>
    refine Nat.le_trans ?_ (ih _)
    simp only [sweepStep]; split <;> simp

theorem sweepFold_msgs_mono (m : Module) (entries : List (String × List String))
    (acc : CheckSt) (msg : String) (h : msg ∈ acc.msgs) :
    msg ∈ ((entries.foldl (sweepStep m) acc)).msgs := by
  induction entries generalizing acc with
  | nil => exact h
  | cons p rest ih =>
    refine ih _ ?_
    simp only [sweepStep]; split <;> simp [h]

/-- An entry whose key is neither a module type nor a builtin makes the
sweep print the undefined-type diagnostic with every recorded user and
leaves at least one counted error. -/
theorem sweepFold_hits (m : Module) (entries : List (String × List String))
    (acc : CheckSt) (k : String) (uses : List String)
    (hmem : (k, uses) ∈ entries)
    (hundef : (lookupA m.types k).isNone = true)
    (hbi : k ∉ builtin_types) :
    ("Undefined type " ++ k ++ ", used in " ++ String.intercalate ", " uses) ∈
        ((entries.foldl (sweepStep m) acc)).msgs ∧
    1 ≤ ((entries.foldl (sweepStep m) acc)).errors := by
  induction entries generalizing acc with
  | nil => cases hmem
  | cons p rest ih =>
    rw [List.foldl_cons]
    rcases List.mem_cons.mp hmem with hp | hp
    · subst hp
      have hstep : sweepStep m acc (k, uses) =
          { acc with
            errors := acc.errors + 1,
            msgs := acc.msgs ++
              ["Undefined type " ++ k ++ ", used in " ++
                String.intercalate ", " uses] } := by
        simp only [sweepStep]
        rw [if_pos]
        simp [hundef, hbi]
      rw [hstep]
      constructor
      · exact sweepFold_msgs_mono m rest _ _ (by simp)
      · have := sweepFold_errors_mono m rest
          { acc with
            errors := acc.errors + 1,
            msgs := acc.msgs ++
              ["Undefined type " ++ k ++ ", used in " ++
                String.intercalate ", " uses] }
        simp at this
        omega
    · exact ih _ hp

theorem errors_pos_check_false (v : CheckSt) (h : 1 ≤ v.errors) :
    (v.errors == 0) = false := by
  cases hv : v.errors with
  | zero => omega
  | succ n => rfl

theorem sweepFold_types (m : Module) (entries : List (String × List String))
    (acc : CheckSt) :
    ((entries.foldl (sweepStep m) acc)).types = acc.types := by
  induction entries generalizing acc with
  | nil => rfl
  | cons p rest ih => rw [List.foldl_cons, ih, sweepStep_types]

theorem lookupA_mem {α : Type} (l : List (String × α)) (k : String) (v : α)
    (h : lookupA l k = some v) : (k, v) ∈ l := by
  simp only [lookupA, Option.map_eq_some'] at h
  obtain ⟨p, hp, hv⟩ := h
  have hmem := List.mem_of_find?_eq_some hp
  have hk := List.find?_some hp
  simp only [decide_eq_true_eq] at hk
  obtain ⟨p1, p2⟩ := p
  simp only at hk hv
  rw [← hk, ← hv] at *
  exact hmem

/-! ## Claim C5: duplicate constructor names -/

theorem stepEvent_consE_new (st : CheckSt) (cn tn : String)
    (h : lookupA st.cons cn = none) :
    stepEvent st (.consE cn tn) = { st with cons := st.cons ++ [(cn, tn)] } := by
  simp only [stepEvent, h]

theorem stepEvent_consE_conflict (st : CheckSt) (cn tn conflict : String)
    (h : lookupA st.cons cn = some conflict) :
    stepEvent st (.consE cn tn) =
      { st with
        errors := st.errors + 1,
        msgs := st.msgs ++
          ["Redefinition of constructor" ++ cn,
           "Defined in " ++ conflict ++ " and " ++ tn] } := by
  simp only [stepEvent, h]

/-- Claim C5.  When the traversal order of the checker (the event list
of the module) registers a constructor name first under type t1 and
meets it again under type t2, check returns false, the cons map still
holds the first defining type, and both diagnostic lines are printed,
the second naming the two defining types; the traversal continues (the
later events are still applied, as the fold shows). -/
theorem c5_duplicate_constructor (n : String) (dfns : List TypeDef)
    (pre mid post : List Event) (c t1 t2 : String)
    (hsplit : moduleEvents (Module.make n dfns) =
      pre ++ Event.consE c t1 :: mid ++ Event.consE c t2 :: post)
    (hpre : noConsFor c pre = true) :
    (check (Module.make n dfns)).1 = false ∧
    lookupA ((check (Module.make n dfns)).2.cons) c = some t1 ∧
    ("Redefinition of constructor" ++ c) ∈ (check (Module.make n dfns)).2.msgs ∧
    ("Defined in " ++ t1 ++ " and " ++ t2) ∈ (check (Module.make n dfns)).2.msgs := by
  have hm := visitModule_eq_events (Module.make n dfns) initCheck
  rw [hsplit] at hm
  rw [List.foldl_append, List.foldl_append, List.foldl_cons, List.foldl_cons] at hm
  have h1 : lookupA ((pre.foldl stepEvent initCheck)).cons c = none := by
    rw [cons_unchanged pre initCheck c hpre]; rfl
  have h2eq := stepEvent_consE_new (pre.foldl stepEvent initCheck) c t1 h1
  have h2 : lookupA ((stepEvent (pre.foldl stepEvent initCheck) (.consE c t1))).cons
      c = some t1 := by
    rw [h2eq]
    show lookupA ((pre.foldl stepEvent initCheck).cons ++ [(c, t1)]) c = some t1
    rw [lookupA_append, h1]
    simp [lookupA, List.find?]
  have h3 := cons_preserved mid _ c t1 h2
  have h4eq := stepEvent_consE_conflict
    (mid.foldl stepEvent (stepEvent (pre.foldl stepEvent initCheck) (.consE c t1)))
    c t2 t1 h3
  have h5cons : lookupA ((visitModule (Module.make n dfns) initCheck)).cons c =
      some t1 := by
    rw [hm]
    refine cons_preserved post _ c t1 ?_
    rw [h4eq]
    exact h3
  have h5err : 1 ≤ ((visitModule (Module.make n dfns) initCheck)).errors := by
    rw [hm]
    refine Nat.le_trans ?_ (errors_mono_events post _)
    rw [h4eq]
    simp
  have h5msg1 : ("Redefinition of constructor" ++ c) ∈
      ((visitModule (Module.make n dfns) initCheck)).msgs := by
    rw [hm]
    refine msgs_mono_events post _ _ ?_
    rw [h4eq]; simp
  have h5msg2 : ("Defined in " ++ t1 ++ " and " ++ t2) ∈
      ((visitModule (Module.make n dfns) initCheck)).msgs := by
    rw [hm]
    refine msgs_mono_events post _ _ ?_
    rw [h4eq]; simp
  have hsnd : (check (Module.make n dfns)).2 =
      undefinedSweep (Module.make n dfns)
        (visitModule (Module.make n dfns) initCheck) := rfl
  refine ⟨?_, ?_, ?_, ?_⟩
  · show ((check (Module.make n dfns)).2.errors == 0) = false
    refine errors_pos_check_false _ ?_
    rw [hsnd]
    exact Nat.le_trans h5err (sweepFold_errors_mono _ _ _)
  · rw [hsnd]
    show lookupA ((((visitModule (Module.make n dfns) initCheck)).types.foldl
      (sweepStep (Module.make n dfns))
      (visitModule (Module.make n dfns) initCheck)).cons) c = some t1
    rw [sweepFold_cons]
    exact h5cons
  · rw [hsnd]
    exact sweepFold_msgs_mono _ _ _ _ h5msg1
  · rw [hsnd]
    exact sweepFold_msgs_mono _ _ _ _ h5msg2

theorem c5_duplicate_constructor_witness :
    (check (Module.make "M"
      [⟨"x", .sum ⟨[⟨"A", []⟩], []⟩⟩, ⟨"y", .sum ⟨[⟨"A", []⟩], []⟩⟩])).1 = false ∧
    lookupA ((check (Module.make "M"
      [⟨"x", .sum ⟨[⟨"A", []⟩], []⟩⟩, ⟨"y", .sum ⟨[⟨"A", []⟩], []⟩⟩])).2.cons) "A" =
      some "x" ∧
    ("Redefinition of constructor" ++ "A") ∈ (check (Module.make "M"
      [⟨"x", .sum ⟨[⟨"A", []⟩], []⟩⟩, ⟨"y", .sum ⟨[⟨"A", []⟩], []⟩⟩])).2.msgs ∧
    ("Defined in " ++ "x" ++ " and " ++ "y") ∈ (check (Module.make "M"
      [⟨"x", .sum ⟨[⟨"A", []⟩], []⟩⟩, ⟨"y", .sum ⟨[⟨"A", []⟩], []⟩⟩])).2.msgs :=
  c5_duplicate_constructor "M"
    [⟨"x", .sum ⟨[⟨"A", []⟩], []⟩⟩, ⟨"y", .sum ⟨[⟨"A", []⟩], []⟩⟩]
    [] [] [] "A" "x" "y" (by decide) (by decide)

/-! ## Claim C1: undefined type names -/

/-- Claim C1 is refuted on the code: an undefined type name appearing
only in a field of a Sum attributes list is never visited by the
checker, so check returns true for this parsed module even though the
field type nosuch is neither a builtin nor a module type. -/
theorem c1_attribute_field_unchecked :
    parseString "module M \x7b x = A attributes (nosuch y) \x7d" =
      .ok (Module.make "M"
        [⟨"x", .sum ⟨[⟨"A", []⟩], [⟨"nosuch", some "y", false, false⟩]⟩⟩]) ∧
    (check (Module.make "M"
      [⟨"x", .sum ⟨[⟨"A", []⟩], [⟨"nosuch", some "y", false, false⟩]⟩⟩])).1 = true ∧
    lookupA (Module.make "M"
      [⟨"x", .sum ⟨[⟨"A", []⟩], [⟨"nosuch", some "y", false, false⟩]⟩⟩]).types
      "nosuch" = none ∧
    "nosuch" ∉ builtin_types := by
  refine ⟨by decide, by decide, by decide, by decide⟩

/-- Claim C1 (amended).  Any field occurrence the checker traverses
(a field of a constructor or a primary field of a product; attribute
fields are not traversed) whose type name is neither a key of the
module types dict nor a builtin makes check return false and print the
undefined-type diagnostic listing every recorded usage site of that
name, this occurrence included. -/
theorem c1_undefined_type_reported (n : String) (dfns : List TypeDef)
    (ftype site : String)
    (hocc : Event.fieldE ftype site ∈ moduleEvents (Module.make n dfns))
    (hundef : lookupA (Module.make n dfns).types ftype = none)
    (hbi : ftype ∉ builtin_types) :
    (check (Module.make n dfns)).1 = false ∧
    ∃ uses,
      lookupA ((check (Module.make n dfns)).2.types) ftype = some uses ∧
      site ∈ uses ∧
      ("Undefined type " ++ ftype ++ ", used in " ++ String.intercalate ", " uses) ∈
        (check (Module.make n dfns)).2.msgs := by
  have huse : site ∈ fieldEvts (moduleEvents (Module.make n dfns)) ftype := by
    simp only [fieldEvts, List.mem_filterMap]
    exact ⟨Event.fieldE ftype site, hocc, by simp⟩
  have hne : fieldEvts (moduleEvents (Module.make n dfns)) ftype ≠ [] :=
    List.ne_nil_of_mem huse
  have htypes : lookupA ((visitModule (Module.make n dfns) initCheck)).types ftype =
      some (fieldEvts (moduleEvents (Module.make n dfns)) ftype) := by
    rw [visitModule_eq_events, types_after_events]
    have h0 : lookupA (initCheck).types ftype = none := rfl
    rw [h0, if_neg hne]
  have hmem := lookupA_mem _ _ _ htypes
  have hsnd : (check (Module.make n dfns)).2 =
      ((visitModule (Module.make n dfns) initCheck)).types.foldl
        (sweepStep (Module.make n dfns))
        (visitModule (Module.make n dfns) initCheck) := rfl
  have hhits := sweepFold_hits (Module.make n dfns)
    ((visitModule (Module.make n dfns) initCheck)).types
    (visitModule (Module.make n dfns) initCheck) ftype
    (fieldEvts (moduleEvents (Module.make n dfns)) ftype)
    hmem (by rw [hundef]; rfl) hbi
  refine ⟨?_, fieldEvts (moduleEvents (Module.make n dfns)) ftype, ?_, huse, ?_⟩
  · show ((check (Module.make n dfns)).2.errors == 0) = false
    refine errors_pos_check_false _ ?_
    rw [hsnd]
    exact hhits.2
  · rw [hsnd, sweepFold_types]
    exact htypes
  · rw [hsnd]
    exact hhits.1

theorem c1_undefined_type_reported_witness :
    (check (Module.make "M"
      [⟨"x", .sum ⟨[⟨"Foo", [⟨"bad", some "y", false, false⟩]⟩], []⟩⟩])).1 = false ∧
    ∃ uses,
      lookupA ((check (Module.make "M"
        [⟨"x", .sum ⟨[⟨"Foo", [⟨"bad", some "y", false, false⟩]⟩], []⟩⟩])).2.types)
        "bad" = some uses ∧
      "Foo" ∈ uses ∧
      ("Undefined type " ++ "bad" ++ ", used in " ++ String.intercalate ", " uses) ∈
        (check (Module.make "M"
          [⟨"x", .sum ⟨[⟨"Foo", [⟨"bad", some "y", false, false⟩]⟩], []⟩⟩])).2.msgs :=
  c1_undefined_type_reported "M"
    [⟨"x", .sum ⟨[⟨"Foo", [⟨"bad", some "y", false, false⟩]⟩], []⟩⟩]
    "bad" "Foo" (by decide) (by decide) (by decide)

/-! ## Claim C3: the usage map and its diagnostic -/

/-- Claim C3 is refuted on the code: for a field inside a constructor
the checker records the constructor name, not the enclosing type name,
as the usage site.  On this parsed module the map lists Foo as the
user of bad, and Foo is not among the type names of the module (the
only type name is x), so the accumulated lists are not lists of type
names. -/
theorem c3_sites_not_type_names :
    parseString "module M \x7b x = Foo(bad y) \x7d" =
      .ok (Module.make "M"
        [⟨"x", .sum ⟨[⟨"Foo", [⟨"bad", some "y", false, false⟩]⟩], []⟩⟩]) ∧
    (check (Module.make "M"
      [⟨"x", .sum ⟨[⟨"Foo", [⟨"bad", some "y", false, false⟩]⟩], []⟩⟩])).2.types =
      [("bad", ["Foo"])] ∧
    (Module.make "M"
      [⟨"x", .sum ⟨[⟨"Foo", [⟨"bad", some "y", false, false⟩]⟩], []⟩⟩]).dfns.map
      TypeDef.name = ["x"] ∧
    "Foo" ∉ (Module.make "M"
      [⟨"x", .sum ⟨[⟨"Foo", [⟨"bad", some "y", false, false⟩]⟩], []⟩⟩]).dfns.map
      TypeDef.name := by
  refine ⟨by decide, by decide, by decide, by decide⟩

/-- Claim C3 (amended).  The checker accumulates, per referenced
field-type name, the ordered list of usage sites in traversal order,
where the site of a constructor field is the constructor name and the
site of a product field is the type name (the event list makes this
explicit); and the undefined-type diagnostic for a name lists every
accumulated site for it. -/
theorem c3_usage_map (n : String) (dfns : List TypeDef) (k : String) :
    lookupA ((visitModule (Module.make n dfns) initCheck)).types k =
      (if fieldEvts (moduleEvents (Module.make n dfns)) k = [] then none
       else some (fieldEvts (moduleEvents (Module.make n dfns)) k)) ∧
    (∀ uses,
      lookupA ((visitModule (Module.make n dfns) initCheck)).types k = some uses →
      lookupA (Module.make n dfns).types k = none →
      k ∉ builtin_types →
      ("Undefined type " ++ k ++ ", used in " ++ String.intercalate ", " uses) ∈
        (check (Module.make n dfns)).2.msgs) := by
  constructor
  · rw [visitModule_eq_events, types_after_events]
    rfl
  · intro uses huses hundef hbi
    have hmem := lookupA_mem _ _ _ huses
    have hsnd : (check (Module.make n dfns)).2 =
        ((visitModule (Module.make n dfns) initCheck)).types.foldl
          (sweepStep (Module.make n dfns))
          (visitModule (Module.make n dfns) initCheck) := rfl
    rw [hsnd]
    exact (sweepFold_hits (Module.make n dfns) _ _ k uses hmem
      (by rw [hundef]; rfl) hbi).1

theorem c3_usage_map_witness :
    lookupA ((visitModule (Module.make "M"
        [⟨"x", .sum ⟨[⟨"Foo", [⟨"bad", some "y", false, false⟩]⟩], []⟩⟩])
        initCheck)).types "bad" =
      (if fieldEvts (moduleEvents (Module.make "M"
          [⟨"x", .sum ⟨[⟨"Foo", [⟨"bad", some "y", false, false⟩]⟩], []⟩⟩])) "bad" = []
       then none
       else some (fieldEvts (moduleEvents (Module.make "M"
          [⟨"x", .sum ⟨[⟨"Foo", [⟨"bad", some "y", false, false⟩]⟩], []⟩⟩])) "bad")) ∧
    ("Undefined type " ++ "bad" ++ ", used in " ++
        String.intercalate ", " ["Foo"]) ∈
      (check (Module.make "M"
        [⟨"x", .sum ⟨[⟨"Foo", [⟨"bad", some "y", false, false⟩]⟩], []⟩⟩])).2.msgs :=
  ⟨(c3_usage_map "M"
      [⟨"x", .sum ⟨[⟨"Foo", [⟨"bad", some "y", false, false⟩]⟩], []⟩⟩] "bad").1,
   (c3_usage_map "M"
      [⟨"x", .sum ⟨[⟨"Foo", [⟨"bad", some "y", false, false⟩]⟩], []⟩⟩] "bad").2
      ["Foo"] (by decide) (by decide) (by decide)⟩

/-! ## Claim C7: field quantifier exclusivity -/

/-- A field never carries both flags. -/
def fieldOK (f : Field) : Bool := !(f.seq && f.opt)

/-- Every field of the constructor satisfies fieldOK. -/
def consOK (c : Constructor) : Bool := c.fields.all fieldOK

/-- Every field of the sum, attributes included, satisfies fieldOK. -/
def sumOK (s : ASDL.Sum) : Bool :=
  s.types.all consOK && s.attributes.all fieldOK

/-- Every field of the product, attributes included, satisfies fieldOK. -/
def prodOK (p : Product) : Bool :=
  p.fields.all fieldOK && p.attributes.all fieldOK

/-- Every field below the definition value satisfies fieldOK. -/
def tvOK : TypeVal → Bool
  | .sum s => sumOK s
  | .product p => prodOK p

/-- Every field of every tree node of the module satisfies fieldOK. -/
def moduleOK (m : Module) : Bool := m.dfns.all (fun d => tvOK d.value)

theorem parseQuantifier_excl (st : PSt) (q1 q2 : Bool) (st' : PSt)
    (h : parseQuantifier st = .ok ((q1, q2), st')) : (q1 && q2) = false := by
  unfold parseQuantifier at h
  split at h
  · exact absurd h (by simp)
  · split at h
    · simp at h
      simp [h.1.1, h.1.2]
    · split at h
      · simp at h
        simp [h.1.1, h.1.2]
      · simp at h
        simp [h.1.1, h.1.2]

/-- The joint invariant over every parser function, by induction on the
fuel: any successfully returned node satisfies the fieldOK predicate
throughout. -/
theorem parser_ok_invariant : ∀ fl : Nat,
    (∀ st r, parseFieldsLoop fl st = .ok r → r.1.all fieldOK = true) ∧
    (∀ st r, parseFields fl st = .ok r → r.1.all fieldOK = true) ∧
    (∀ st r, parseOptionalFields fl st = .ok r →
      (r.1.getD []).all fieldOK = true) ∧
    (∀ st r, parseOptionalAttributes fl st = .ok r →
      (r.1.getD []).all fieldOK = true) ∧
    (∀ st r, parseSumTail fl st = .ok r → r.1.all consOK = true) ∧
    (∀ st r, parseType fl st = .ok r → tvOK r.1 = true) ∧
    (∀ st r, parseDefinitions fl st = .ok r →
      r.1.all (fun d => tvOK d.value) = true) ∧
    (∀ st m, parseModule fl st = .ok m → moduleOK m = true) := by
  intro fl
  induction fl with
  | zero =>
    refine ⟨?_, ?_, ?_, ?_, ?_, ?_, ?_, ?_⟩ <;> intro st r h <;>
      exact absurd h (by simp [parseFieldsLoop, parseFields, parseOptionalFields,
        parseOptionalAttributes, parseSumTail, parseType, parseDefinitions,
        parseModule])
  | succ fl ih =>
    obtain ⟨ihFL, ihF, ihOF, ihOA, ihST, ihT, ihD, ihM⟩ := ih
    refine ⟨?_, ?_, ?_, ?_, ?_, ?_, ?_, ?_⟩
    · -- parseFieldsLoop
      intro st r h
      simp only [parseFieldsLoop] at h
      split at h
      · simp at h
      · split at h
        · split at h
          · simp at h
          · rename_i isSeq isOpt st2 heqQ
            have hq := parseQuantifier_excl _ _ _ _ heqQ
            split at h
            · simp at h
            · rename_i t2 heq2
              by_cases hid : t2.kind ∈ idKinds
              · simp only [if_pos hid] at h
                split at h
                · simp at h
                · split at h
                  · injection h with h
                    rw [← h]
                    simp [fieldOK, Field.make, hq]
                  · split at h
                    · split at h
                      · simp at h
                      · rename_i rest st4 heqR
                        injection h with h
                        rw [← h]
                        simp only [List.all_cons, Bool.and_eq_true]
                        exact ⟨by simp [fieldOK, Field.make, hq],
                          by simpa using ihFL _ _ heqR⟩
                    · split at h
                      · simp at h
                      · rename_i rest st4 heqR
                        injection h with h
                        rw [← h]
                        simp only [List.all_cons, Bool.and_eq_true]
                        exact ⟨by simp [fieldOK, Field.make, hq],
                          by simpa using ihFL _ _ heqR⟩
              · simp only [if_neg hid] at h
                split at h
                · simp at h
                · split at h
                  · injection h with h
                    rw [← h]
                    simp [fieldOK, Field.make, hq]
                  · split at h
                    · split at h
                      · simp at h
                      · rename_i rest st4 heqR
                        injection h with h
                        rw [← h]
                        simp only [List.all_cons, Bool.and_eq_true]
                        exact ⟨by simp [fieldOK, Field.make, hq],
                          by simpa using ihFL _ _ heqR⟩
                    · split at h
                      · simp at h
                      · rename_i rest st4 heqR
                        injection h with h
                        rw [← h]
                        simp only [List.all_cons, Bool.and_eq_true]
                        exact ⟨by simp [fieldOK, Field.make, hq],
                          by simpa using ihFL _ _ heqR⟩
        · injection h with h
          rw [← h]
          rfl
    · -- parseFields
      intro st r h
      simp only [parseFields] at h
      split at h
      · simp at h
      · split at h
        · simp at h
        · rename_i fs st2 heqL
          split at h
          · simp at h
          · injection h with h
            rw [← h]
            simpa using ihFL _ _ heqL
    · -- parseOptionalFields
      intro st r h
      simp only [parseOptionalFields] at h
      split at h
      · simp at h
      · split at h
        · split at h
          · simp at h
          · rename_i fs st2 heqF
            injection h with h
            rw [← h]
            simpa using ihF _ _ heqF
        · injection h with h
          rw [← h]
          rfl
    · -- parseOptionalAttributes
      intro st r h
      simp only [parseOptionalAttributes] at h
      split at h
      · simp at h
      · split at h
        · split at h
          · simp at h
          · rename_i fs st2 heqF
            injection h with h
            rw [← h]
            simpa using ihF _ _ heqF
        · injection h with h
          rw [← h]
          rfl
    · -- parseSumTail
      intro st r h
      simp only [parseSumTail] at h
      split at h
      · simp at h
      · split at h
        · split at h
          · simp at h
          · rename_i cn st1 heqC
            split at h
            · simp at h
            · rename_i f0 st2 heqOF
              split at h
              · simp at h
              · rename_i cs st3 heqST
                injection h with h
                rw [← h]
                simp only [List.all_cons, Bool.and_eq_true]
                constructor
                · show consOK (Constructor.make cn f0) = true
                  simpa [consOK, Constructor.make] using ihOF _ _ heqOF
                · simpa using ihST _ _ heqST
        · injection h with h
          rw [← h]
          rfl
    · -- parseType
      intro st r h
      simp only [parseType] at h
      split at h
      · simp at h
      · split at h
        · split at h
          · simp at h
          · rename_i fs st1 heqF
            split at h
            · simp at h
            · rename_i attrs st2 heqOA
              injection h with h
              rw [← h]
              show tvOK (.product (Product.make fs attrs)) = true
              simp only [tvOK, prodOK, Product.make, Bool.and_eq_true]
              exact ⟨by simpa using ihF _ _ heqF, by simpa using ihOA _ _ heqOA⟩
        · split at h
          · simp at h
          · rename_i cn st1 heqC
            split at h
            · simp at h
            · rename_i f0 st2 heqOF
              split at h
              · simp at h
              · rename_i cs st3 heqST
                split at h
                · simp at h
                · rename_i attrs st4 heqOA
                  injection h with h
                  rw [← h]
                  show tvOK (.sum (Sum.make (Constructor.make cn f0 :: cs)
                    attrs)) = true
                  simp only [tvOK, sumOK, Sum.make, Bool.and_eq_true, List.all_cons]
                  refine ⟨⟨?_, ?_⟩, ?_⟩
                  · show consOK (Constructor.make cn f0) = true
                    simpa [consOK, Constructor.make] using ihOF _ _ heqOF
                  · simpa using ihST _ _ heqST
                  · simpa using ihOA _ _ heqOA
    · -- parseDefinitions
      intro st r h
      simp only [parseDefinitions] at h
      split at h
      · simp at h
      · split at h
        · split at h
          · simp at h
          · rename_i e1 st1 heqE
            split at h
            · simp at h
            · rename_i ty st2 heqT
              split at h
              · simp at h
              · rename_i rest st3 heqD
                injection h with h
                rw [← h]
                simp only [List.all_cons, Bool.and_eq_true]
                exact ⟨by simpa using ihT _ _ heqT, by simpa using ihD _ _ heqD⟩
        · injection h with h
          rw [← h]
          rfl
    · -- parseModule
      intro st m h
      simp only [parseModule] at h
      split at h
      · simp at h
      · split at h
        · split at h
          · simp at h
          · rename_i nm st1 heqN
            split at h
            · simp at h
            · rename_i b1 st2 heqB
              split at h
              · simp at h
              · rename_i defs st3 heqD
                split at h
                · simp at h
                · injection h with h
                  rw [← h]
                  show moduleOK (Module.make nm defs) = true
                  simpa [moduleOK, Module.make] using ihD _ _ heqD
        · split at h
          · simp at h
          · simp at h

/-- Claim C7.  Every field of every tree returned by parse satisfies
the exclusivity invariant (the seq and opt flags are never both true,
attribute fields included); the quantifier step returns an exclusive
pair for every input, and on a token that is neither an asterisk nor a
question mark it consumes nothing and leaves both flags false. -/
theorem c7_quantifier_exclusivity (s : String) (m : Module)
    (h : parseString s = .ok m) :
    moduleOK m = true ∧
    (∀ f : Field, fieldOK f = true → ¬(f.seq = true ∧ f.opt = true)) ∧
    (∀ st q1 q2 st', parseQuantifier st = .ok ((q1, q2), st') →
      (q1 && q2) = false) ∧
    (∀ st t, st.cur = some t → t.kind ≠ .Asterisk → t.kind ≠ .Question →
      parseQuantifier st = .ok ((false, false), st)) := by
  refine ⟨?_, ?_, ?_, ?_⟩
  · simp only [parseString, parseChars] at h
    split at h
    · simp at h
    · rename_i T heqT
      exact (parser_ok_invariant _).2.2.2.2.2.2.2 _ _ h
  · intro f hf hc
    simp [fieldOK, hc.1, hc.2] at hf
  · exact fun st q1 q2 st' hq => parseQuantifier_excl st q1 q2 st' hq
  · intro st t hcur h1 h2
    simp [parseQuantifier, hcur, h1, h2]

theorem c7_quantifier_exclusivity_witness :
    moduleOK (Module.make "M"
      [⟨"e", .sum ⟨[⟨"Foo", [⟨"int", some "a", false, true⟩,
        ⟨"int", some "b", true, false⟩]⟩], []⟩⟩]) = true :=
  (c7_quantifier_exclusivity "module M \x7b e = Foo(int? a, int* b) \x7d"
    (Module.make "M"
      [⟨"e", .sum ⟨[⟨"Foo", [⟨"int", some "a", false, true⟩,
        ⟨"int", some "b", true, false⟩]⟩], []⟩⟩]) (by decide)).1

/-! ## Claim C4: the shape of accepted field lists

The claim compares the parser against the grammar production

  fields ::= "(" field \x7b "," field \x7d ")"
  field  ::= TypeId ["?" | "*"] [Id]

so a second set of definitions below follows the production literally
(specField, specFieldsTail, specFields: at least one field, exactly one
comma between consecutive fields, no trailing comma), to be compared
with the parser from the source. -/

/-- The optional quantifier of the production: consume one asterisk or
one question mark if present. -/
def specQuant : List Token → (Bool × Bool) × List Token
  | q :: r =>
    if q.kind = .Asterisk then ((true, false), r)
    else if q.kind = .Question then ((false, true), r)
    else ((false, false), q :: r)
  | [] => ((false, false), [])

/-- The optional trailing Id of the production: consume one identifier
token of either kind if present. -/
def specId : List Token → Option String × List Token
  | i :: r2 =>
    if i.kind ∈ idKinds then (some i.value, r2) else (none, i :: r2)
  | [] => (none, [])

/-- One field of the production: a TypeId, the optional quantifier, the
optional name. -/
def specField : List Token → Option (Field × List Token)
  | [] => none
  | t :: rest =>
    if t.kind = .TypeId then
      some (Field.make t.value (specId (specQuant rest).2).1
          (specQuant rest).1.1 (specQuant rest).1.2,
        (specId (specQuant rest).2).2)
    else none

/-- The rest of the production after one field: either the closing
paren, or exactly one comma followed by another field.  Fuel keeps the
recursion structural; any fuel above the list length is equivalent. -/
def specFieldsTailF : Nat → List Token → Option (List Field × List Token)
  | 0, _ => none
  | _ + 1, [] => none
  | f + 1, c :: rest =>
    if c.kind = .RParen then some ([], rest)
    else if c.kind = .Comma then
      match specField rest with
      | some (fd, rest1) =>
        match specFieldsTailF f rest1 with
        | some (fs, rest2) => some (fd :: fs, rest2)
        | none => none
      | none => none
    else none

theorem specQuant_length_le (l : List Token) :
    (specQuant l).2.length ≤ l.length := by
  cases l with
  | nil => simp [specQuant]
  | cons q r =>
    simp only [specQuant]
    split
    · simp
    · split <;> simp

theorem specId_length_le (l : List Token) :
    (specId l).2.length ≤ l.length := by
  cases l with
  | nil => simp [specId]
  | cons i r =>
    simp only [specId]
    split <;> simp

theorem specField_length_lt (T : List Token) (f : Field) (rest : List Token)
    (h : specField T = some (f, rest)) : rest.length < T.length := by
  cases T with
  | nil => simp [specField] at h
  | cons t R =>
    simp only [specField] at h
    split at h
    · injection h with h
      rw [Prod.mk.injEq] at h
      rw [← h.2]
      have := specId_length_le (specQuant R).2
      have := specQuant_length_le R
      simp only [List.length_cons]
      omega
    · simp at h

theorem specFieldsTailF_stable :
    ∀ f1 f2 T, T.length < f1 → T.length < f2 →
      specFieldsTailF f1 T = specFieldsTailF f2 T := by
  intro f1
  induction f1 with
  | zero => intro f2 T h1 _; omega
  | succ f ih =>
    intro f2 T h1 h2
    cases T with
    | nil =>
      cases f2 with
      | zero => omega
      | succ f2 => rfl
    | cons c rest =>
      cases f2 with
      | zero => omega
      | succ f2 =>
        simp only [List.length_cons] at h1 h2
        simp only [specFieldsTailF]
        split
        · rfl
        · split
          · cases hsf : specField rest with
            | none => rfl
            | some p =>
              obtain ⟨fd, rest1⟩ := p
              have hlt := specField_length_lt rest fd rest1 hsf
              have hrw := ih f2 rest1 (by omega) (by omega)
              simp only [hrw]
          · rfl

/-- The fields tail with always-sufficient fuel. -/
def specFieldsTail (T : List Token) : Option (List Field × List Token) :=
  specFieldsTailF (T.length + 1) T

/-- The whole fields production: opening paren, one field, the tail. -/
def specFields : List Token → Option (List Field × List Token)
  | [] => none
  | c :: rest =>
    if c.kind = .LParen then
      match specField rest with
      | some (fd, rest1) =>
        match specFieldsTail rest1 with
        | some (fs, rest2) => some (fd :: fs, rest2)
        | none => none
      | none => none
    else none

/-- One-step unfolding of specFieldsTail. -/
theorem specFieldsTail_eq (c : Token) (rest : List Token) :
    specFieldsTail (c :: rest) =
      (if c.kind = .RParen then some ([], rest)
      else if c.kind = .Comma then
        match specField rest with
        | some (fd, rest1) =>
          match specFieldsTail rest1 with
          | some (fs, rest2) => some (fd :: fs, rest2)
          | none => none
        | none => none
      else none) := by
  show specFieldsTailF (rest.length + 2) (c :: rest) = _
  simp only [specFieldsTailF]
  split
  · rfl
  · split
    · cases hsf : specField rest with
      | none => rfl
      | some p =>
        obtain ⟨fd, rest1⟩ := p
        have hlt := specField_length_lt rest fd rest1 hsf
        have hrw := specFieldsTailF_stable (rest.length + 1) (rest1.length + 1) rest1
          (by omega) (by omega)
        simp only [hrw]
        rfl
    · rfl

/-- The parser state whose lookahead is loaded with the head of a token
list, the way every state reachable by advancing is shaped. -/
def fromToks (T : List Token) : PSt := ⟨T.head?, T.tail⟩

theorem fromToks_cons (t : Token) (T : List Token) :
    fromToks (t :: T) = ⟨some t, T⟩ := rfl

theorem parseQuantifier_spec (q : Token) (rr : List Token) (sq so : Bool)
    (Rq : List Token) (h : specQuant (q :: rr) = ((sq, so), Rq)) :
    parseQuantifier (fromToks (q :: rr)) = .ok ((sq, so), fromToks Rq) := by
  simp only [specQuant] at h
  by_cases h1 : q.kind = .Asterisk
  · rw [if_pos h1] at h
    simp only [Prod.mk.injEq] at h
    obtain ⟨⟨hsq, hso⟩, hRq⟩ := h
    simp [parseQuantifier, fromToks, advanceSt, h1, ← hsq, ← hso, ← hRq]
  · rw [if_neg h1] at h
    by_cases h2 : q.kind = .Question
    · rw [if_pos h2] at h
      simp only [Prod.mk.injEq] at h
      obtain ⟨⟨hsq, hso⟩, hRq⟩ := h
      simp [parseQuantifier, fromToks, advanceSt, h1, h2, ← hsq, ← hso, ← hRq]
    · rw [if_neg h2] at h
      simp only [Prod.mk.injEq] at h
      obtain ⟨⟨hsq, hso⟩, hRq⟩ := h
      simp [parseQuantifier, fromToks, advanceSt, h1, h2, ← hsq, ← hso, ← hRq]

/-- Soundness of the production with respect to the parser loop: a
field followed by a well-formed tail parses to the same fields and
stops on the closing paren. -/
theorem parseFieldsLoop_of_spec :
    ∀ fl T f rest1 fs rest2,
      specField T = some (f, rest1) →
      specFieldsTail rest1 = some (fs, rest2) →
      T.length < fl →
      ∃ rp : Token, rp.kind = .RParen ∧
        parseFieldsLoop fl (fromToks T) = .ok (f :: fs, ⟨some rp, rest2⟩) := by
  intro fl
  induction fl with
  | zero => intro T _ _ _ _ _ _ hlen; omega
  | succ fl ih =>
    intro T f rest1 fs rest2 hf ht hlen
    cases T with
    | nil => simp [specField] at hf
    | cons t R =>
      simp only [specField] at hf
      split at hf
      case isFalse => simp at hf
      case isTrue htk =>
        injection hf with hf
        rw [Prod.mk.injEq] at hf
        obtain ⟨hfld, hrest1⟩ := hf
        cases hr1 : rest1 with
        | nil =>
          rw [hr1] at ht
          simp [specFieldsTail, specFieldsTailF] at ht
        | cons c cs =>
          have hRne : R ≠ [] := by
            intro hR
            rw [hR] at hrest1
            simp [specQuant, specId] at hrest1
            rw [hrest1] at hr1
            exact List.noConfusion hr1
          cases R with
          | nil => exact absurd rfl hRne
          | cons q rr =>
            cases hq : specQuant (q :: rr) with
            | mk qp Rq =>
              obtain ⟨sq, so⟩ := qp
              have hquant := parseQuantifier_spec q rr sq so Rq hq
              rw [hq] at hrest1 hfld
              simp only at hrest1 hfld
              have hRqne : Rq ≠ [] := by
                intro hR
                rw [hR] at hrest1
                simp [specId] at hrest1
                rw [hrest1] at hr1
                exact List.noConfusion hr1
              cases Rq with
              | nil => exact absurd rfl hRqne
              | cons i r2 =>
                have hlen1 := specField_length_lt (t :: q :: rr) f rest1
                  (by
                    simp only [specField, if_pos htk, hq]
                    rw [hrest1, hfld])
                rw [fromToks_cons]
                simp only [parseFieldsLoop, if_pos htk]
                have hadv : advanceSt ⟨some t, q :: rr⟩ = fromToks (q :: rr) := rfl
                rw [hadv, hquant]
                simp only
                rw [fromToks_cons]
                simp only
                by_cases hid : i.kind ∈ idKinds
                · simp only [if_pos hid]
                  have hid1 : specId (i :: r2) = (some i.value, r2) := by
                    simp [specId, hid]
                  rw [hid1] at hrest1 hfld
                  simp only at hrest1 hfld
                  subst hrest1
                  subst hr1
                  simp only [advanceSt, List.head?_cons, List.tail_cons]
                  rw [specFieldsTail_eq] at ht
                  by_cases hrp : c.kind = .RParen
                  · rw [if_pos hrp] at ht
                    injection ht with ht
                    rw [Prod.mk.injEq] at ht
                    obtain ⟨hfs, hrest2⟩ := ht
                    refine ⟨c, hrp, ?_⟩
                    rw [if_pos hrp, ← hfld, ← hfs, ← hrest2]
                  · rw [if_neg hrp] at ht
                    by_cases hcm : c.kind = .Comma
                    · rw [if_pos hcm] at ht
                      cases hsf : specField cs with
                      | none => rw [hsf] at ht; simp at ht
                      | some p =>
                        obtain ⟨fd, rest1x⟩ := p
                        rw [hsf] at ht
                        simp only at ht
                        cases hst : specFieldsTail rest1x with
                        | none => rw [hst] at ht; simp at ht
                        | some p2 =>
                          obtain ⟨fs2, rest2x⟩ := p2
                          rw [hst] at ht
                          simp only at ht
                          injection ht with ht
                          rw [Prod.mk.injEq] at ht
                          obtain ⟨hfs, hrest2⟩ := ht
                          have hlen2 : cs.length < fl := by
                            simp only [List.length_cons] at hlen hlen1
                            omega
                          obtain ⟨rp, hrpk, hloop⟩ :=
                            ih cs fd rest1x fs2 rest2x hsf hst hlen2
                          refine ⟨rp, hrpk, ?_⟩
                          rw [if_neg hrp, if_pos hcm]
                          simp only [fromToks] at hloop
                          rw [hloop]
                          simp only
                          rw [← hfld, ← hfs, ← hrest2]
                    · rw [if_neg hcm] at ht
                      simp at ht
                · have hid1 : specId (i :: r2) = (none, i :: r2) := by
                    simp [specId, hid]
                  rw [hid1] at hrest1 hfld
                  simp only at hrest1 hfld
                  rw [hr1] at hrest1
                  injection hrest1 with hic hr2c
                  subst hic
                  subst hr2c
                  subst hr1
                  simp only [if_neg hid]
                  rw [specFieldsTail_eq] at ht
                  by_cases hrp : i.kind = .RParen
                  · rw [if_pos hrp] at ht
                    injection ht with ht
                    rw [Prod.mk.injEq] at ht
                    obtain ⟨hfs, hrest2⟩ := ht
                    refine ⟨i, hrp, ?_⟩
                    rw [if_pos hrp, ← hfld, ← hfs, ← hrest2]
                  · rw [if_neg hrp] at ht
                    by_cases hcm : i.kind = .Comma
                    · rw [if_pos hcm] at ht
                      cases hsf : specField r2 with
                      | none => rw [hsf] at ht; simp at ht
                      | some p =>
                        obtain ⟨fd, rest1x⟩ := p
                        rw [hsf] at ht
                        simp only at ht
                        cases hst : specFieldsTail rest1x with
                        | none => rw [hst] at ht; simp at ht
                        | some p2 =>
                          obtain ⟨fs2, rest2x⟩ := p2
                          rw [hst] at ht
                          simp only at ht
                          injection ht with ht
                          rw [Prod.mk.injEq] at ht
                          obtain ⟨hfs, hrest2⟩ := ht
                          have hlen2 : r2.length < fl := by
                            simp only [List.length_cons] at hlen hlen1
                            omega
                          obtain ⟨rp, hrpk, hloop⟩ :=
                            ih r2 fd rest1x fs2 rest2x hsf hst hlen2
                          refine ⟨rp, hrpk, ?_⟩
                          rw [if_neg hrp, if_pos hcm]
                          have hadv2 : advanceSt (⟨some i, r2⟩ : PSt) = fromToks r2 := rfl
                          rw [hadv2, hloop]
                          simp only
                          rw [← hfld, ← hfs, ← hrest2]
                    · rw [if_neg hcm] at ht
                      simp at ht

/-! The lenient shape the parser actually accepts inside the
parentheses, written from the amended claim: either the closing paren
at once (empty list), or a field (the same field shape as the
production), after which the list ends at the closing paren, or an
optional single comma separates it from what follows, where a comma
directly before the closing paren also ends the list.  Fuel keeps the
recursion structural; any fuel above the list length is equivalent. -/

def lenFieldsF : Nat → List Token → Option (List Field × List Token)
  | 0, _ => none
  | _ + 1, [] => none
  | f + 1, c0 :: rest0 =>
    if c0.kind = .RParen then some ([], rest0)
    else
      match specField (c0 :: rest0) with
      | none => none
      | some (fd, S) =>
        match S with
        | [] => none
        | c :: cs =>
          if c.kind = .RParen then some ([fd], cs)
          else if c.kind = .Comma then
            match lenFieldsF f cs with
            | some (fs, rest) => some (fd :: fs, rest)
            | none => none
          else
            match lenFieldsF f (c :: cs) with
            | some (fs, rest) => some (fd :: fs, rest)
            | none => none

theorem lenFieldsF_stable :
    ∀ f1 f2 T, T.length < f1 → T.length < f2 →
      lenFieldsF f1 T = lenFieldsF f2 T := by
  intro f1
  induction f1 with
  | zero => intro f2 T h1 _; omega
  | succ f ih =>
    intro f2 T h1 h2
    cases T with
    | nil =>
      cases f2 with
      | zero => omega
      | succ f2 => rfl
    | cons c0 rest0 =>
      cases f2 with
      | zero => omega
      | succ f2 =>
        simp only [List.length_cons] at h1 h2
        simp only [lenFieldsF]
        split
        · rfl
        · cases hsf : specField (c0 :: rest0) with
          | none => rfl
          | some p =>
            obtain ⟨fd, S⟩ := p
            have hlt := specField_length_lt (c0 :: rest0) fd S hsf
            simp only [List.length_cons] at hlt
            cases S with
            | nil => rfl
            | cons c cs =>
              simp only [List.length_cons] at hlt
              by_cases hrp : c.kind = .RParen
              · simp only [if_pos hrp]
              · by_cases hcm : c.kind = .Comma
                · have hrw := ih f2 cs (by omega) (by omega)
                  simp only [if_neg hrp, if_pos hcm, hrw]
                · have hrw := ih f2 (c :: cs)
                    (by simp only [List.length_cons]; omega)
                    (by simp only [List.length_cons]; omega)
                  simp only [if_neg hrp, if_neg hcm, hrw]

/-- The lenient shape with always-sufficient fuel. -/
def lenFields (T : List Token) : Option (List Field × List Token) :=
  lenFieldsF (T.length + 1) T

/-- One-step unfolding of the fueled lenient shape, for any
sufficient fuel. -/
theorem lenFieldsF_succ (f : Nat) (c0 : Token) (rest0 : List Token)
    (hf : rest0.length < f) :
    lenFieldsF (f + 1) (c0 :: rest0) =
      (if c0.kind = .RParen then some ([], rest0)
      else
        match specField (c0 :: rest0) with
        | none => none
        | some (fd, S) =>
          match S with
          | [] => none
          | c :: cs =>
            if c.kind = .RParen then some ([fd], cs)
            else if c.kind = .Comma then
              match lenFields cs with
              | some (fs, rest) => some (fd :: fs, rest)
              | none => none
            else
              match lenFields (c :: cs) with
              | some (fs, rest) => some (fd :: fs, rest)
              | none => none) := by
  simp only [lenFieldsF]
  split
  · rfl
  · cases hsf : specField (c0 :: rest0) with
    | none => rfl
    | some p =>
      obtain ⟨fd, S⟩ := p
      have hlt := specField_length_lt (c0 :: rest0) fd S hsf
      simp only [List.length_cons] at hlt
      cases S with
      | nil => rfl
      | cons c cs =>
        simp only [List.length_cons] at hlt
        by_cases hrp : c.kind = .RParen
        · simp only [if_pos hrp]
        · by_cases hcm : c.kind = .Comma
          · have hrw := lenFieldsF_stable f (cs.length + 1) cs
              (by omega) (by omega)
            simp only [if_neg hrp, if_pos hcm, lenFields, hrw]
          · have hrw := lenFieldsF_stable f ((c :: cs).length + 1) (c :: cs)
              (by simp only [List.length_cons]; omega) (by omega)
            simp only [if_neg hrp, if_neg hcm, lenFields, hrw]

/-- One-step unfolding of lenFields. -/
theorem lenFields_eq (c0 : Token) (rest0 : List Token) :
    lenFields (c0 :: rest0) =
      (if c0.kind = .RParen then some ([], rest0)
      else
        match specField (c0 :: rest0) with
        | none => none
        | some (fd, S) =>
          match S with
          | [] => none
          | c :: cs =>
            if c.kind = .RParen then some ([fd], cs)
            else if c.kind = .Comma then
              match lenFields cs with
              | some (fs, rest) => some (fd :: fs, rest)
              | none => none
            else
              match lenFields (c :: cs) with
              | some (fs, rest) => some (fd :: fs, rest)
              | none => none) :=
  lenFieldsF_succ ((c0 :: rest0).length) c0 rest0 (by simp)

/-- One iteration of the parser field loop, phrased through the spec
field step: when the production derives one field with a nonempty
continuation, the loop behaves per the head of that continuation. -/
theorem parseFieldsLoop_field_step (fl : Nat) (T : List Token) (fd : Field)
    (c : Token) (cs : List Token)
    (hsf : specField T = some (fd, c :: cs)) :
    parseFieldsLoop (fl + 1) (fromToks T) =
      (if c.kind = .RParen then .ok ([fd], ⟨some c, cs⟩)
      else if c.kind = .Comma then
        match parseFieldsLoop fl (fromToks cs) with
        | .error e => .error e
        | .ok (rest, st4) => .ok (fd :: rest, st4)
      else
        match parseFieldsLoop fl (fromToks (c :: cs)) with
        | .error e => .error e
        | .ok (rest, st4) => .ok (fd :: rest, st4)) := by
  cases T with
  | nil => simp [specField] at hsf
  | cons t R =>
    simp only [specField] at hsf
    split at hsf
    case isFalse => simp at hsf
    case isTrue htk =>
      injection hsf with hsf
      rw [Prod.mk.injEq] at hsf
      obtain ⟨hfld, hS⟩ := hsf
      have hRne : R ≠ [] := by
        intro hR
        rw [hR] at hS
        simp [specQuant, specId] at hS
      cases R with
      | nil => exact absurd rfl hRne
      | cons q rr =>
        cases hq : specQuant (q :: rr) with
        | mk qp Rq =>
          obtain ⟨sq, so⟩ := qp
          have hquant := parseQuantifier_spec q rr sq so Rq hq
          rw [hq] at hS hfld
          simp only at hS hfld
          have hRqne : Rq ≠ [] := by
            intro hR
            rw [hR] at hS
            simp [specId] at hS
          cases Rq with
          | nil => exact absurd rfl hRqne
          | cons i r2 =>
            rw [fromToks_cons]
            simp only [parseFieldsLoop, if_pos htk]
            have hadv : advanceSt ⟨some t, q :: rr⟩ = fromToks (q :: rr) := rfl
            rw [hadv, hquant]
            simp only
            rw [fromToks_cons]
            simp only
            by_cases hid : i.kind ∈ idKinds
            · simp only [if_pos hid]
              have hid1 : specId (i :: r2) = (some i.value, r2) := by
                simp [specId, hid]
              rw [hid1] at hS hfld
              simp only at hS hfld
              subst hS
              rw [← hfld]
              simp only [advanceSt, List.head?_cons, List.tail_cons, fromToks]
            · simp only [if_neg hid]
              have hid1 : specId (i :: r2) = (none, i :: r2) := by
                simp [specId, hid]
              rw [hid1] at hS hfld
              simp only at hS hfld
              injection hS with hic hr2
              subst hic
              subst hr2
              rw [← hfld]
              simp only [advanceSt, List.head?_cons, List.tail_cons, fromToks]

/-- A successful loop iteration on a TypeId lookahead forces the spec
field step to succeed with a nonempty continuation. -/
theorem parseFieldsLoop_ok_specField (fl : Nat) (t : Token) (R : List Token)
    (htk : t.kind = .TypeId) (r : List Field × PSt)
    (h : parseFieldsLoop (fl + 1) (fromToks (t :: R)) = .ok r) :
    ∃ fd c cs, specField (t :: R) = some (fd, c :: cs) := by
  rw [fromToks_cons] at h
  simp only [parseFieldsLoop, if_pos htk] at h
  cases R with
  | nil => simp [parseQuantifier, advanceSt] at h
  | cons q rr =>
    cases hq : specQuant (q :: rr) with
    | mk qp Rq =>
      obtain ⟨sq, so⟩ := qp
      have hquant := parseQuantifier_spec q rr sq so Rq hq
      have hadv : advanceSt ⟨some t, q :: rr⟩ = fromToks (q :: rr) := rfl
      rw [hadv, hquant] at h
      simp only at h
      cases Rq with
      | nil => simp [fromToks] at h
      | cons i r2 =>
        rw [fromToks_cons] at h
        simp only at h
        by_cases hid : i.kind ∈ idKinds
        · simp only [if_pos hid] at h
          have hid1 : specId (i :: r2) = (some i.value, r2) := by
            simp [specId, hid]
          cases r2 with
          | nil => simp [advanceSt] at h
          | cons c cs =>
            refine ⟨Field.make t.value (some i.value) sq so, c, cs, ?_⟩
            simp only [specField, if_pos htk, hq, hid1]
        · simp only [if_neg hid] at h
          have hid1 : specId (i :: r2) = (none, i :: r2) := by
            simp [specId, hid]
          refine ⟨Field.make t.value none sq so, i, r2, ?_⟩
          simp only [specField, if_pos htk, hq, hid1]

/-- Completeness of the lenient shape: a lenient derivation parses,
with the same fields, stopping right after the closing paren. -/
theorem parseFieldsLoop_of_lenient :
    ∀ fl T fs rest,
      lenFields T = some (fs, rest) →
      T.length < fl →
      ∃ rp : Token, rp.kind = .RParen ∧
        parseFieldsLoop fl (fromToks T) = .ok (fs, ⟨some rp, rest⟩) := by
  intro fl
  induction fl with
  | zero => intro T fs rest _ hlen; omega
  | succ fl ih =>
    intro T fs rest h hlen
    cases T with
    | nil => simp [lenFields, lenFieldsF] at h
    | cons c0 R0 =>
      rw [lenFields_eq] at h
      by_cases hrp0 : c0.kind = .RParen
      · rw [if_pos hrp0] at h
        injection h with h
        rw [Prod.mk.injEq] at h
        obtain ⟨hfs, hrest⟩ := h
        refine ⟨c0, hrp0, ?_⟩
        rw [fromToks_cons]
        simp only [parseFieldsLoop]
        rw [if_neg (by simp [hrp0])]
        rw [← hfs, ← hrest]
      · rw [if_neg hrp0] at h
        cases hsf : specField (c0 :: R0) with
        | none => rw [hsf] at h; simp at h
        | some p =>
          obtain ⟨fd, S⟩ := p
          rw [hsf] at h
          simp only at h
          cases S with
          | nil => simp at h
          | cons c cs =>
            simp only at h
            rw [parseFieldsLoop_field_step fl (c0 :: R0) fd c cs hsf]
            have hlt := specField_length_lt (c0 :: R0) fd (c :: cs) hsf
            simp only [List.length_cons] at hlt hlen
            by_cases hrp : c.kind = .RParen
            · rw [if_pos hrp] at h ⊢
              injection h with h
              rw [Prod.mk.injEq] at h
              obtain ⟨hfs, hrest⟩ := h
              exact ⟨c, hrp, by rw [← hfs, ← hrest]⟩
            · rw [if_neg hrp] at h ⊢
              by_cases hcm : c.kind = .Comma
              · rw [if_pos hcm] at h ⊢
                cases hln : lenFields cs with
                | none => rw [hln] at h; simp at h
                | some p2 =>
                  obtain ⟨fs2, rest2⟩ := p2
                  rw [hln] at h
                  simp only at h
                  injection h with h
                  rw [Prod.mk.injEq] at h
                  obtain ⟨hfs, hrest⟩ := h
                  obtain ⟨rp, hrpk, hloop⟩ := ih cs fs2 rest2 hln (by omega)
                  refine ⟨rp, hrpk, ?_⟩
                  rw [hloop]
                  simp only
                  rw [← hfs, ← hrest]
              · rw [if_neg hcm] at h ⊢
                cases hln : lenFields (c :: cs) with
                | none => rw [hln] at h; simp at h
                | some p2 =>
                  obtain ⟨fs2, rest2⟩ := p2
                  rw [hln] at h
                  simp only at h
                  injection h with h
                  rw [Prod.mk.injEq] at h
                  obtain ⟨hfs, hrest⟩ := h
                  obtain ⟨rp, hrpk, hloop⟩ := ih (c :: cs) fs2 rest2 hln
                    (by simp only [List.length_cons]; omega)
                  refine ⟨rp, hrpk, ?_⟩
                  rw [hloop]
                  simp only
                  rw [← hfs, ← hrest]

/-- Soundness of the lenient shape: whatever the parser loop accepts
(followed by the closing paren the enclosing _parse_fields matches) is
a lenient derivation with the same fields. -/
theorem parseFieldsLoop_to_lenient :
    ∀ fl T fs st',
      parseFieldsLoop fl (fromToks T) = .ok (fs, st') →
      ∀ v st'', matchTok [.RParen] st' = .ok (v, st'') →
      ∃ rest, lenFields T = some (fs, rest) ∧ st'' = fromToks rest := by
  intro fl
  induction fl with
  | zero => intro T fs st' h; simp [parseFieldsLoop] at h
  | succ fl ih =>
    intro T fs st' h v st'' hm
    cases T with
    | nil => simp [parseFieldsLoop, fromToks] at h
    | cons t R =>
      by_cases htk : t.kind = .TypeId
      · obtain ⟨fd, c, cs, hsf⟩ := parseFieldsLoop_ok_specField fl t R htk _ h
        rw [parseFieldsLoop_field_step fl (t :: R) fd c cs hsf] at h
        have hshape : lenFields (t :: R) =
            (if c.kind = .RParen then some ([fd], cs)
            else if c.kind = .Comma then
              match lenFields cs with
              | some (fs, rest) => some (fd :: fs, rest)
              | none => none
            else
              match lenFields (c :: cs) with
              | some (fs, rest) => some (fd :: fs, rest)
              | none => none) := by
          rw [lenFields_eq, if_neg (by simp [htk]), hsf]
        by_cases hrp : c.kind = .RParen
        · rw [if_pos hrp] at h
          injection h with h
          rw [Prod.mk.injEq] at h
          obtain ⟨hfs, hst⟩ := h
          rw [← hst] at hm
          simp only [matchTok] at hm
          rw [if_pos (by simp [hrp])] at hm
          injection hm with hm
          rw [Prod.mk.injEq] at hm
          refine ⟨cs, ?_, ?_⟩
          · rw [hshape, if_pos hrp, hfs]
          · rw [← hm.2]
            rfl
        · rw [if_neg hrp] at h
          by_cases hcm : c.kind = .Comma
          · rw [if_pos hcm] at h
            cases hrec : parseFieldsLoop fl (fromToks cs) with
            | error e => rw [hrec] at h; simp at h
            | ok r2 =>
              obtain ⟨fs2, st2⟩ := r2
              rw [hrec] at h
              simp only at h
              injection h with h
              rw [Prod.mk.injEq] at h
              obtain ⟨hfs, hst⟩ := h
              rw [hst] at hrec
              obtain ⟨rest, hln, hst2⟩ := ih cs fs2 st' hrec v st'' hm
              refine ⟨rest, ?_, hst2⟩
              rw [hshape, if_neg hrp, if_pos hcm, hln]
              simp only
              rw [hfs]
          · rw [if_neg hcm] at h
            cases hrec : parseFieldsLoop fl (fromToks (c :: cs)) with
            | error e => rw [hrec] at h; simp at h
            | ok r2 =>
              obtain ⟨fs2, st2⟩ := r2
              rw [hrec] at h
              simp only at h
              injection h with h
              rw [Prod.mk.injEq] at h
              obtain ⟨hfs, hst⟩ := h
              rw [hst] at hrec
              obtain ⟨rest, hln, hst2⟩ := ih (c :: cs) fs2 st' hrec v st'' hm
              refine ⟨rest, ?_, hst2⟩
              rw [hshape, if_neg hrp, if_neg hcm, hln]
              simp only
              rw [hfs]
      · rw [fromToks_cons] at h
        simp only [parseFieldsLoop, if_neg htk] at h
        injection h with h
        rw [Prod.mk.injEq] at h
        obtain ⟨hfs, hst⟩ := h
        rw [← hst] at hm
        simp only [matchTok] at hm
        by_cases hrpt : t.kind = .RParen
        · rw [if_pos (by simp [hrpt])] at hm
          injection hm with hm
          rw [Prod.mk.injEq] at hm
          refine ⟨R, ?_, ?_⟩
          · rw [lenFields_eq, if_pos hrpt, hfs]
          · rw [← hm.2]
            rfl
        · rw [if_neg (by simp [hrpt])] at hm
          simp at hm

/-- A match on a single expected kind succeeds on a token of that kind,
returning its value and advancing. -/
theorem matchTok_pos (k : TokenKind) (t : Token) (toks : List Token)
    (hk : t.kind = k) :
    matchTok [k] ⟨some t, toks⟩ = .ok (t.value, fromToks toks) := by
  simp [matchTok, hk, advanceSt, fromToks]

/-- The exact acceptance characterization of _parse_fields: a parse
succeeds precisely on an opening paren followed by a lenient-shape
derivation, and then returns exactly the derived fields and stops
right after the closing paren. -/
theorem parseFields_exact (fl : Nat) (T : List Token) (r : List Field × PSt)
    (hfl : T.length < fl) :
    parseFields fl (fromToks T) = .ok r ↔
      ∃ lp R rest2, T = lp :: R ∧ lp.kind = .LParen ∧
        lenFields R = some (r.1, rest2) ∧ r.2 = fromToks rest2 := by
  constructor
  · intro h
    cases fl with
    | zero => simp [parseFields] at h
    | succ fl =>
      simp only [parseFields] at h
      cases T with
      | nil => simp [matchTok, fromToks] at h
      | cons lp R =>
        rw [fromToks_cons] at h
        by_cases hlp : lp.kind = .LParen
        · rw [matchTok_pos .LParen lp R hlp] at h
          simp only at h
          cases hloop : parseFieldsLoop fl (fromToks R) with
          | error e => rw [hloop] at h; simp at h
          | ok r0 =>
            obtain ⟨fs0, st0⟩ := r0
            rw [hloop] at h
            simp only at h
            cases hmt : matchTok [TokenKind.RParen] st0 with
            | error e => rw [hmt] at h; simp at h
            | ok p0 =>
              obtain ⟨v0, st1⟩ := p0
              rw [hmt] at h
              simp only at h
              injection h with h
              obtain ⟨rest, hln, hst⟩ :=
                parseFieldsLoop_to_lenient fl R fs0 st0 hloop v0 st1 hmt
              refine ⟨lp, R, rest, rfl, hlp, ?_, ?_⟩
              · rw [← h]
                exact hln
              · rw [← h]
                exact hst
        · have hne : matchTok [TokenKind.LParen] (⟨some lp, R⟩ : PSt) =
              .error (.unmatched [TokenKind.LParen] lp.kind lp.lineno) := by
            simp [matchTok, hlp]
          rw [hne] at h
          simp at h
  · intro hex
    obtain ⟨lp, R, rest2, hT, hlp, hln, hr2⟩ := hex
    subst hT
    cases fl with
    | zero => omega
    | succ fl =>
      simp only [parseFields]
      rw [fromToks_cons]
      rw [matchTok_pos .LParen lp R hlp]
      simp only
      simp only [List.length_cons] at hfl
      obtain ⟨rp, hrpk, hloop⟩ :=
        parseFieldsLoop_of_lenient fl R r.1 rest2 hln (by omega)
      rw [hloop]
      simp only
      rw [matchTok_pos .RParen rp rest2 hrpk]
      simp only
      rw [← hr2]

/-- Claim C4 is refuted on the code: the trailing-comma field list
(int a,) is not derivable from the fields production (specFields
rejects its token sequence) yet the parser accepts it without a syntax
error and returns a product with the one field. -/
theorem c4_trailing_comma_accepted :
    tokenize "(int a,)".data 1 =
      .ok [⟨.LParen, "(", 1⟩, ⟨.TypeId, "int", 1⟩, ⟨.TypeId, "a", 1⟩,
        ⟨.Comma, ",", 1⟩, ⟨.RParen, ")", 1⟩] ∧
    specFields [⟨.LParen, "(", 1⟩, ⟨.TypeId, "int", 1⟩, ⟨.TypeId, "a", 1⟩,
        ⟨.Comma, ",", 1⟩, ⟨.RParen, ")", 1⟩] = none ∧
    parseString "module M \x7b p = (int a,) \x7d" =
      .ok (Module.make "M"
        [⟨"p", .product ⟨[⟨"int", some "a", false, false⟩], []⟩⟩]) := by
  refine ⟨by decide, by decide, by decide⟩

/-- Claim C4 (amended).  The parser accepts every token sequence of the
fields production, producing exactly the fields the production derives
and stopping right after the closing paren; its acceptance is exactly
the lenient shape lenFields (after the opening paren: either the
closing paren at once, or fields each followed by the closing paren, a
separating comma, or directly the next field), which is strictly more
lenient than the production (it also accepts an empty field list, a
trailing comma before the closing paren, and two fields with no comma
between them); every other shape inside the parentheses raises a
syntax error, e.g. a comma directly after the opening paren. -/
theorem c4_fields_production :
    (∀ (T : List Token) (fs : List Field) (rest : List Token) (fl : Nat),
      specFields T = some (fs, rest) → T.length < fl →
      parseFields fl (fromToks T) = .ok (fs, fromToks rest)) ∧
    (∀ (fl : Nat) (T : List Token) (r : List Field × PSt), T.length < fl →
      (parseFields fl (fromToks T) = .ok r ↔
        ∃ lp R rest2, T = lp :: R ∧ lp.kind = .LParen ∧
          lenFields R = some (r.1, rest2) ∧ r.2 = fromToks rest2)) ∧
    parseString "module M \x7b p = () \x7d" =
      .ok (Module.make "M" [⟨"p", .product ⟨[], []⟩⟩]) ∧
    parseString "module M \x7b p = (int a,) \x7d" =
      .ok (Module.make "M"
        [⟨"p", .product ⟨[⟨"int", some "a", false, false⟩], []⟩⟩]) ∧
    parseString "module M \x7b p = (int a int b) \x7d" =
      .ok (Module.make "M"
        [⟨"p", .product ⟨[⟨"int", some "a", false, false⟩,
          ⟨"int", some "b", false, false⟩], []⟩⟩]) ∧
    parseString "module M \x7b p = (,) \x7d" =
      .error (PErr.unmatched [TokenKind.RParen] TokenKind.Comma 1) := by
  refine ⟨?_, ?_, by decide, by decide, by decide, by decide⟩
  · intro T fs rest fl hspec hfl
    cases T with
    | nil => simp [specFields] at hspec
    | cons c R =>
      simp only [specFields] at hspec
      split at hspec
      case isFalse => simp at hspec
      case isTrue hlp =>
        cases hsf : specField R with
        | none => rw [hsf] at hspec; simp at hspec
        | some p =>
          obtain ⟨fd, rest1⟩ := p
          rw [hsf] at hspec
          simp only at hspec
          cases hst : specFieldsTail rest1 with
          | none => rw [hst] at hspec; simp at hspec
          | some p2 =>
            obtain ⟨fs2, rest2⟩ := p2
            rw [hst] at hspec
            simp only at hspec
            injection hspec with hspec
            rw [Prod.mk.injEq] at hspec
            obtain ⟨hfs, hrest⟩ := hspec
            cases fl with
            | zero => omega
            | succ fl =>
              rw [fromToks_cons]
              simp only [parseFields]
              have hmt : matchTok [TokenKind.LParen] ⟨some c, R⟩ =
                  .ok (c.value, fromToks R) := by
                simp [matchTok, hlp, advanceSt, fromToks]
              rw [hmt]
              simp only
              have hlenR : R.length < fl := by
                simp only [List.length_cons] at hfl
                omega
              obtain ⟨rp, hrpk, hloop⟩ :=
                parseFieldsLoop_of_spec fl R fd rest1 fs2 rest2 hsf hst hlenR
              rw [hloop]
              simp only
              have hmt2 : matchTok [TokenKind.RParen] ⟨some rp, rest2⟩ =
                  .ok (rp.value, fromToks rest2) := by
                simp [matchTok, hrpk, advanceSt, fromToks]
              rw [hmt2]
              simp only
              rw [← hfs, ← hrest]
  · intro fl T r hfl
    exact parseFields_exact fl T r hfl

theorem c4_fields_production_witness :
    (parseFields 9 (fromToks [⟨.LParen, "(", 1⟩, ⟨.TypeId, "int", 1⟩,
        ⟨.TypeId, "a", 1⟩, ⟨.RParen, ")", 1⟩]) =
      .ok ([⟨"int", some "a", false, false⟩], fromToks [])) ∧
    (parseFields 9 (fromToks [⟨.LParen, "(", 1⟩, ⟨.Comma, ",", 1⟩,
        ⟨.RParen, ")", 1⟩])).isOk = false := by
  refine ⟨c4_fields_production.1
    [⟨.LParen, "(", 1⟩, ⟨.TypeId, "int", 1⟩, ⟨.TypeId, "a", 1⟩, ⟨.RParen, ")", 1⟩]
    [⟨"int", some "a", false, false⟩] [] 9 (by decide) (by decide), ?_⟩
  cases hp : parseFields 9 (fromToks [⟨.LParen, "(", 1⟩, ⟨.Comma, ",", 1⟩,
      ⟨.RParen, ")", 1⟩]) with
  | error e => rfl
  | ok r =>
    obtain ⟨lp, R, rest2, hT, hlp, hln, hr2⟩ :=
      (c4_fields_production.2.1 9
        [⟨.LParen, "(", 1⟩, ⟨.Comma, ",", 1⟩, ⟨.RParen, ")", 1⟩] r
        (by decide)).mp hp
    injection hT with hT1 hT2
    rw [← hT2] at hln
    simp [lenFields, lenFieldsF, specField] at hln

/-! ## Claim C6: comment invariance -/

theorem takeWhile_append_stop (p : Char → Bool) (x : Char) (hx : p x = false) :
    ∀ u r : List Char, (u ++ x :: r).takeWhile p = u.takeWhile p := by
  intro u r
  induction u with
  | nil => simp [List.takeWhile, hx]
  | cons c cs ih =>
    simp only [List.cons_append, List.takeWhile]
    cases hp : p c with
    | true => simp [ih]
    | false => rfl

theorem dropWhile_append_stop (p : Char → Bool) (x : Char) (hx : p x = false) :
    ∀ u r : List Char, (u ++ x :: r).dropWhile p = u.dropWhile p ++ x :: r := by
  intro u r
  induction u with
  | nil => simp [List.dropWhile, hx]
  | cons c cs ih =>
    simp only [List.cons_append, List.dropWhile]
    cases hp : p c with
    | true => simp [ih]
    | false => simp

theorem dropToNewline_cons (c : Char) (cs : List Char) :
    dropToNewline (c :: cs) = if c = '\n' then c :: cs else dropToNewline cs := rfl

theorem dropToNewline_append (u v : List Char) :
    dropToNewline (u ++ v) =
      if '\n' ∈ u then dropToNewline u ++ v else dropToNewline v := by
  induction u with
  | nil => simp [dropToNewline]
  | cons c cs ih =>
    rw [List.cons_append, dropToNewline_cons, dropToNewline_cons]
    by_cases hc : c = '\n'
    · subst hc
      rw [if_pos rfl, if_pos rfl, if_pos (List.mem_cons_self _ _)]
      rfl
    · rw [if_neg hc, if_neg hc, ih]
      by_cases hm : '\n' ∈ cs
      · rw [if_pos hm, if_pos (List.mem_cons_of_mem c hm)]
      · rw [if_neg hm, if_neg ?hnm]
        case hnm =>
          intro hx
          rcases List.mem_cons.mp hx with h1 | h1
          · exact hc h1.symm
          · exact hm h1

theorem dropToNewline_clean (u : List Char) (hu : ∀ c ∈ u, c ≠ '\n') :
    ∀ v, dropToNewline (u ++ '\n' :: v) = '\n' :: v := by
  intro v
  rw [dropToNewline_append]
  rw [if_neg (by intro hm; exact hu _ hm rfl)]
  simp [dropToNewline]

/-- Two dashes start a comment: the tokenizer continues at the newline
ending the comment line. -/
theorem tokenize_comment_start (t2 : List Char) (n : Nat) :
    tokenize ('-' :: '-' :: t2) n = tokenize (dropToNewline t2) n := by
  rw [tokenize_cons]
  rw [if_neg (by decide), if_neg (by decide), if_pos rfl]
  rfl

/-- A dash not followed by a dash is the invalid-operator error. -/
theorem tokenize_dash_bad (x : Char) (hx : ¬ (x = '-')) (r : List Char) (n : Nat) :
    tokenize ('-' :: x :: r) n =
      .error (.synErr ("Invalid operator " ++ String.mk ['-']) (some n)) := by
  rw [tokenize_cons]
  rw [if_neg (by decide), if_neg (by decide), if_pos rfl]
  simp [hx]

/-- A non-special character goes through the operator table. -/
theorem tokenize_op (c : Char) (k2 : TokenKind) (hsp : ¬ isSpace c = true)
    (hal : ¬ isAlpha c = true) (hd : ¬ c = '-') (hop : opKind c = some k2)
    (cs : List Char) (n : Nat) :
    tokenize (c :: cs) n =
      match tokenize cs n with
      | .ok ts => .ok (⟨k2, String.mk [c], n⟩ :: ts)
      | .error e => .error e := by
  rw [tokenize_cons, if_neg hsp, if_neg hal, if_neg hd, hop]

/-- The tokenizer does not see a line comment: with the comment body
free of newlines, the buffer with the comment spliced in right before
a newline tokenizes exactly like the buffer without it. -/
theorem tokenize_comment_line (t b : List Char) (ht : ∀ c ∈ t, c ≠ '\n') :
    ∀ k a, a.length ≤ k → ∀ n T,
      tokenize (a ++ '\n' :: b) n = .ok T →
      tokenize (a ++ '-' :: '-' :: (t ++ '\n' :: b)) n = .ok T := by
  intro k
  induction k with
  | zero =>
    intro a ha n T h
    have ha0 : a = [] := List.eq_nil_of_length_eq_zero (Nat.le_zero.mp ha)
    subst ha0
    simp only [List.nil_append] at h ⊢
    rw [tokenize_comment_start, dropToNewline_clean t ht b]
    exact h
  | succ k ih =>
    intro a ha n T h
    cases a with
    | nil =>
      simp only [List.nil_append] at h ⊢
      rw [tokenize_comment_start, dropToNewline_clean t ht b]
      exact h
    | cons c a1 =>
      simp only [List.length_cons] at ha
      simp only [List.cons_append] at h ⊢
      by_cases hsp : isSpace c = true
      · rw [tokenize_cons] at h ⊢
        rw [if_pos hsp] at h ⊢
        exact ih a1 (by omega) _ T h
      · by_cases hal : isAlpha c = true
        · rw [tokenize_cons] at h ⊢
          rw [if_neg hsp, if_pos hal] at h ⊢
          rw [takeWhile_append_stop isWordChar '\n' (by decide),
            dropWhile_append_stop isWordChar '\n' (by decide)] at h
          rw [takeWhile_append_stop isWordChar '-' (by decide),
            dropWhile_append_stop isWordChar '-' (by decide)]
          cases hrec : tokenize (a1.dropWhile isWordChar ++ '\n' :: b) n with
          | error e => rw [hrec] at h; simp at h
          | ok ts =>
            rw [hrec] at h
            have := dropWhile_length_le isWordChar a1
            rw [ih (a1.dropWhile isWordChar) (by omega) _ ts hrec]
            exact h
        · by_cases hd : c = '-'
          · subst hd
            cases a1 with
            | nil =>
              simp only [List.nil_append] at h
              rw [tokenize_dash_bad '\n' (by decide)] at h
              simp at h
            | cons c2 a2 =>
              simp only [List.length_cons] at ha
              simp only [List.cons_append] at h ⊢
              by_cases hd2 : c2 = '-'
              · subst hd2
                rw [tokenize_comment_start] at h ⊢
                by_cases hm : '\n' ∈ a2
                · rw [dropToNewline_append, if_pos hm] at h
                  rw [dropToNewline_append, if_pos hm]
                  have := dropToNewline_length_le a2
                  exact ih (dropToNewline a2) (by omega) _ T h
                · rw [dropToNewline_append, if_neg hm] at h
                  rw [dropToNewline_append, if_neg hm]
                  rw [show dropToNewline ('\n' :: b) = '\n' :: b from rfl] at h
                  rw [show dropToNewline ('-' :: '-' :: (t ++ '\n' :: b)) =
                      dropToNewline (t ++ '\n' :: b) from rfl]
                  rw [dropToNewline_clean t ht b]
                  exact h
              · rw [tokenize_dash_bad c2 hd2] at h
                simp at h
          · cases hop : opKind c with
            | none =>
              rw [tokenize_cons, if_neg hsp, if_neg hal, if_neg hd, hop] at h
              simp at h
            | some k2 =>
              rw [tokenize_op c k2 hsp hal hd hop] at h ⊢
              cases hrec : tokenize (a1 ++ '\n' :: b) n with
              | error e => rw [hrec] at h; simp at h
              | ok ts =>
                rw [hrec] at h
                rw [ih a1 (by omega) _ ts hrec]
                exact h

/-- Claim C6.  When a buffer parses to a module and still parses to
the same module with a line break inserted at a position (which is
what makes that position a legal token boundary for a comment running
to end of line), splicing a double-dash comment with a newline-free
body in at that position yields a buffer that parses to an equal tree:
the comment produces no token. -/
theorem c6_comment_invariance (a t b : String) (m : Module)
    (ht : ∀ c ∈ t.data, c ≠ '\n')
    (h1 : parseString (a ++ b) = .ok m)
    (h2 : parseString (a ++ "\n" ++ b) = .ok m) :
    parseString (a ++ "--" ++ t ++ "\n" ++ b) = .ok m := by
  have hd2 : (a ++ "\n" ++ b).data = a.data ++ '\n' :: b.data := by
    simp [String.data_append]
  have hd3 : (a ++ "--" ++ t ++ "\n" ++ b).data =
      a.data ++ '-' :: '-' :: (t.data ++ '\n' :: b.data) := by
    simp [String.data_append]
  simp only [parseString, parseChars, hd2] at h2
  simp only [parseString, parseChars, hd3]
  cases htok : tokenize (a.data ++ '\n' :: b.data) 1 with
  | error e => rw [htok] at h2; simp at h2
  | ok T =>
    rw [htok] at h2
    rw [tokenize_comment_line t.data b.data ht a.data.length a.data
      (Nat.le_refl _) 1 T htok]
    exact h2

theorem c6_comment_invariance_witness :
    parseString ("module M \x7b" ++ "--" ++ " a comment" ++ "\n" ++ " \x7d") =
      .ok (Module.make "M" []) :=
  c6_comment_invariance "module M \x7b" " a comment" " \x7d" (Module.make "M" [])
    (by decide) (by decide) (by decide)

end ASDL
